import Mathlib

/-!
Shallow embedding of the `cirko` Serbian Cyrillic ↔ Latin transliteration
engine (`src/lib.rs`) and verification of its specification.

Strings are modelled as `List Char`; byte positions of the Rust code are
modelled with `Char.utf8Size` accumulated over the list.  Rust's Unicode
case operations (`char::to_lowercase`, `char::to_uppercase`,
`char::is_uppercase`) are modelled by an explicit case-pair table covering
the repertoire the engine's lookup tables can react to: the two 30-letter
alphabets in both cases, ASCII, and the two further code points whose
Unicode lowercase folding lands inside the tables' key set (U+212A KELVIN
SIGN, whose lowercase is `k`, and U+0130 LATIN CAPITAL LETTER I WITH DOT
ABOVE, the first character of whose lowercase expansion is `i`).  All
other code points are modelled as caseless; for those the engine's
lookups never fire, so the conversions treat them as unmapped exactly as
the Rust code does (the only residual simplification is the case bit of
characters outside this repertoire, which the code reads only to choose
between two identical pass-through behaviours or to capitalise a digraph's
second letter after a non-repertoire character).
-/

namespace Cirko

/-- Pairs (uppercase, lowercase) modelling Rust's case mapping on the
repertoire relevant to the engine: the 30 Cyrillic letters, the Latin
letters used by the mapping (including đ ž ć č š), the rest of ASCII, and
the two non-ASCII code points that case-fold into the tables' key set:
U+212A KELVIN SIGN (lowercase `k`) and U+0130 LATIN CAPITAL LETTER I WITH
DOT ABOVE (whose lowercase expansion begins with `i`).  Lookups take the
first matching pair, so the two trailing entries never shadow `K`/`k` or
`I`/`i`. -/
def casePairs : List (Char × Char) :=
  [('А', 'а'),
   ('Б', 'б'),
   ('В', 'в'),
   ('Г', 'г'),
   ('Д', 'д'),
   ('Ђ', 'ђ'),
   ('Е', 'е'),
   ('Ж', 'ж'),
   ('З', 'з'),
   ('И', 'и'),
   ('Ј', 'ј'),
   ('К', 'к'),
   ('Л', 'л'),
   ('Љ', 'љ'),
   ('М', 'м'),
   ('Н', 'н'),
   ('Њ', 'њ'),
   ('О', 'о'),
   ('П', 'п'),
   ('Р', 'р'),
   ('С', 'с'),
   ('Т', 'т'),
   ('Ћ', 'ћ'),
   ('У', 'у'),
   ('Ф', 'ф'),
   ('Х', 'х'),
   ('Ц', 'ц'),
   ('Ч', 'ч'),
   ('Џ', 'џ'),
   ('Ш', 'ш'),
   ('A', 'a'),
   ('B', 'b'),
   ('C', 'c'),
   ('D', 'd'),
   ('E', 'e'),
   ('F', 'f'),
   ('G', 'g'),
   ('H', 'h'),
   ('I', 'i'),
   ('J', 'j'),
   ('K', 'k'),
   ('L', 'l'),
   ('M', 'm'),
   ('N', 'n'),
   ('O', 'o'),
   ('P', 'p'),
   ('R', 'r'),
   ('S', 's'),
   ('T', 't'),
   ('U', 'u'),
   ('V', 'v'),
   ('Z', 'z'),
   ('Ć', 'ć'),
   ('Č', 'č'),
   ('Đ', 'đ'),
   ('Š', 'š'),
   ('Ž', 'ž'),
   ('Q', 'q'),
   ('W', 'w'),
   ('X', 'x'),
   ('Y', 'y'),
   ('K', 'k'),
   ('İ', 'i')]

/-- Models `c.to_lowercase().next().unwrap()` on the engine's repertoire. -/
def rustToLower (c : Char) : Char :=
  match casePairs.find? (fun p => p.1 = c) with
  | some p => p.2
  | none => c

/-- Models `c.to_uppercase().next().unwrap()` on the engine's repertoire. -/
def rustToUpper (c : Char) : Char :=
  match casePairs.find? (fun p => p.2 = c) with
  | some p => p.1
  | none => c

/-- Models `c.is_uppercase()` on the engine's repertoire. -/
def rustIsUpper (c : Char) : Bool :=
  casePairs.any (fun p => p.1 = c)

/-- The full lowercase expansion of one character under `str::to_lowercase`
(used by the exception probe, which lowercases a whole slice): every
character of the repertoire expands to its single lowercase pair partner,
except U+0130, whose expansion is `i` followed by U+0307 COMBINING DOT
ABOVE. -/
def rustToLowerStr (c : Char) : List Char :=
  if c = 'İ' then ['i', '\u0307'] else [rustToLower c]

/-- Models `str::to_lowercase` on a character sequence. -/
def strToLower : List Char → List Char
  | [] => []
  | c :: rest => rustToLowerStr c ++ strToLower rest

/-- The forward table `CYR_TO_LAT` of `src/lib.rs`: each Cyrillic letter to
its (lowercase) Latin form, a 1- or 2-character string. -/
def CYR_TO_LAT : Char → Option (List Char)
  | 'а' => some ['a']
  | 'б' => some ['b']
  | 'в' => some ['v']
  | 'г' => some ['g']
  | 'д' => some ['d']
  | 'ђ' => some ['đ']
  | 'е' => some ['e']
  | 'ж' => some ['ž']
  | 'з' => some ['z']
  | 'и' => some ['i']
  | 'ј' => some ['j']
  | 'к' => some ['k']
  | 'л' => some ['l']
  | 'љ' => some ['l', 'j']
  | 'м' => some ['m']
  | 'н' => some ['n']
  | 'њ' => some ['n', 'j']
  | 'о' => some ['o']
  | 'п' => some ['p']
  | 'р' => some ['r']
  | 'с' => some ['s']
  | 'т' => some ['t']
  | 'ћ' => some ['ć']
  | 'у' => some ['u']
  | 'ф' => some ['f']
  | 'х' => some ['h']
  | 'ц' => some ['c']
  | 'ч' => some ['č']
  | 'џ' => some ['d', 'ž']
  | 'ш' => some ['š']
  | _ => none

/-- The single-character entries of the reverse table `LAT_TO_CYR`. -/
def latSingle : Char → Option Char
  | 'a' => some 'а'
  | 'b' => some 'б'
  | 'v' => some 'в'
  | 'g' => some 'г'
  | 'd' => some 'д'
  | 'đ' => some 'ђ'
  | 'e' => some 'е'
  | 'ž' => some 'ж'
  | 'z' => some 'з'
  | 'i' => some 'и'
  | 'j' => some 'ј'
  | 'k' => some 'к'
  | 'l' => some 'л'
  | 'm' => some 'м'
  | 'n' => some 'н'
  | 'o' => some 'о'
  | 'p' => some 'п'
  | 'r' => some 'р'
  | 's' => some 'с'
  | 't' => some 'т'
  | 'ć' => some 'ћ'
  | 'u' => some 'у'
  | 'f' => some 'ф'
  | 'h' => some 'х'
  | 'c' => some 'ц'
  | 'č' => some 'ч'
  | 'š' => some 'ш'
  | _ => none

/-- The two-character (digraph) entries of the reverse table `LAT_TO_CYR`. -/
def latPair (c1 c2 : Char) : Option Char :=
  if c1 = 'd' ∧ c2 = 'ž' then some 'џ' else
  if c1 = 'l' ∧ c2 = 'j' then some 'љ' else
  if c1 = 'n' ∧ c2 = 'j' then some 'њ' else
  none

/-- The reverse table `LAT_TO_CYR` of `src/lib.rs`, keyed by a 1- or
2-character lowercase Latin string. -/
def LAT_TO_CYR : List Char → Option Char
  | [c] => latSingle c
  | [c1, c2] => latPair c1 c2
  | _ => none

/-- The exception set `EXCEPTIONS` of `src/lib.rs`: lowercase fragments in
which a digraph-looking sequence must not be merged. -/
def EXCEPTIONS : List (List Char) :=
  ["tanjug".data, "adžive".data, "nadže".data, "odžive".data,
   "odžvaka".data, "odžuri".data, "džubori".data, "onjugacij".data,
   "njukcij".data, "njekcij".data, "anjezičn".data]

/-- The constant `MAX_EXCEPTION_LEN` of `src/lib.rs` (in bytes). -/
def MAX_EXCEPTION_LEN : Nat := 9

/-- UTF-8 byte length of a character sequence (Rust `str::len`). -/
def utf8Len (s : List Char) : Nat :=
  (s.map Char.utf8Size).sum

/-!
## Skip patterns

`SKIP_PATTERNS` of `src/lib.rs` is a list of seven `^`-anchored regexes
(URL, email, hashtag, LaTeX block open/close, LaTeX command, inline math)
matched with the Rust `regex` crate's leftmost-first (Perl-like)
preference semantics: alternatives are tried in order and quantifiers are
greedy with backtracking.  Each regex is embedded as a CPS backtracking
matcher; the continuation receives the remaining input and the last
consumed character (needed for the word-boundary assertion).
-/

/-- A backtracking matcher: input, previously consumed character, and a
continuation that is given the remaining input and new previous
character.  Returns the remainder after the first (preference-order)
overall success. -/
def Matcher : Type :=
  List Char → Option Char → (List Char → Option Char → Option (List Char)) →
    Option (List Char)

/-- Match one character satisfying `p`. -/
def mchar (p : Char → Bool) : Matcher := fun s _ k =>
  match s with
  | c :: rest => if p c then k rest (some c) else none
  | [] => none

/-- Match a literal character sequence. -/
def mlit : List Char → Matcher
  | [], s, prev, k => k s prev
  | t :: ts, s, _, k =>
    match s with
    | c :: rest => if c = t then mlit ts rest (some c) k else none
    | [] => none

/-- Sequencing of matchers. -/
def mseq (a b : Matcher) : Matcher := fun s prev k =>
  a s prev (fun s' p' => b s' p' k)

/-- Greedy option (`x?`): prefer matching `a`. -/
def mopt (a : Matcher) : Matcher := fun s prev k =>
  (a s prev k) <|> k s prev

/-- Greedy star over a character class (`[..]*`): prefer consuming. -/
def mmany (p : Char → Bool) : Matcher
  | [], prev, k => k [] prev
  | c :: rest, prev, k =>
    if p c then (mmany p rest (some c) k) <|> k (c :: rest) prev
    else k (c :: rest) prev

/-- Greedy plus over a character class (`[..]+`). -/
def mmany1 (p : Char → Bool) : Matcher :=
  mseq (mchar p) (mmany p)

/-- Greedy bounded repetition over a character class (`[..]{lo,hi}`). -/
def mrep (p : Char → Bool) : Nat → Nat → Matcher
  | lo, 0, s, prev, k => if lo = 0 then k s prev else none
  | lo, _ + 1, [], prev, k => if lo = 0 then k [] prev else none
  | lo, hi + 1, c :: rest, prev, k =>
    if p c then
      (mrep p (lo - 1) hi rest (some c) k) <|>
        (if lo = 0 then k (c :: rest) prev else none)
    else if lo = 0 then k (c :: rest) prev else none

/-- The class `\w` of the Rust `regex` crate, modelled on the engine's repertoire:
ASCII alphanumerics, underscore, and the letters of both alphabets. -/
def isWordChar (c : Char) : Bool :=
  c.isAlphanum || c == '_' ||
    casePairs.any (fun p => p.1 = c || p.2 = c)

/-- The word-boundary assertion `\b`: zero-width, succeeds when exactly
one of the neighbouring characters is a word character. -/
def mWB : Matcher := fun s prev k =>
  if (match prev with | some c => isWordChar c | none => false) ≠
      (match s with | c :: _ => isWordChar c | [] => false) then
    k s prev
  else none

/-- First character class of the URL regex: `[-a-zA-Z0-9@:%._\+~#=]`. -/
def urlClassA (c : Char) : Bool :=
  c == '-' || c.isAlpha || c.isDigit ||
    c == '@' || c == ':' || c == '%' || c == '.' || c == '_' ||
    c == '+' || c == '~' || c == '#' || c == '='

/-- Second character class of the URL regex: `[a-zA-Z0-9()]`. -/
def urlClassB (c : Char) : Bool :=
  c.isAlphanum || c == '(' || c == ')'

/-- Trailing character class of the URL regex:
`[-a-zA-Z0-9()@:%_\+.~#?&//=]`. -/
def urlClassC (c : Char) : Bool :=
  c == '-' || c.isAlphanum || c == '(' || c == ')' ||
    c == '@' || c == ':' || c == '%' || c == '_' || c == '+' ||
    c == '.' || c == '~' || c == '#' || c == '?' || c == '&' ||
    c == '/' || c == '='

/-- The optional scheme group `(https?://)?` of the URL regex. -/
def urlScheme : Matcher :=
  mseq (mlit "http".data)
    (mseq (mopt (mchar (· == 's'))) (mlit "://".data))

/-- The URL regex
`^(https?://)?[-a-zA-Z0-9@:%._\+~#=]{1,256}\.[a-zA-Z0-9()]{1,6}\b([-a-zA-Z0-9()@:%_\+.~#?&//=]*)`. -/
def urlM : Matcher :=
  mseq (mopt urlScheme)
    (mseq (mrep urlClassA 1 256)
      (mseq (mchar (· == '.'))
        (mseq (mrep urlClassB 1 6)
          (mseq mWB (mmany urlClassC)))))

/-- Local-part class of the email regex: `[a-zA-Z0-9._%+-]`. -/
def emailClassL (c : Char) : Bool :=
  c.isAlphanum || c == '.' || c == '_' || c == '%' || c == '+' || c == '-'

/-- Domain class of the email regex: `[a-zA-Z0-9.-]`. -/
def emailClassD (c : Char) : Bool :=
  c.isAlphanum || c == '.' || c == '-'

/-- The email regex `^[a-zA-Z0-9._%+-]+@[a-zA-Z0-9.-]+\.[a-zA-Z]{2,}`. -/
def emailM : Matcher :=
  mseq (mmany1 emailClassL)
    (mseq (mchar (· == '@'))
      (mseq (mmany1 emailClassD)
        (mseq (mchar (· == '.'))
          (mseq (mchar Char.isAlpha)
            (mseq (mchar Char.isAlpha) (mmany Char.isAlpha))))))

/-- The hashtag regex `^#\w+`. -/
def hashtagM : Matcher :=
  mseq (mchar (· == '#')) (mmany1 isWordChar)

/-- The LaTeX block-open regex `^\\begin\{\w+\}`. -/
def beginM : Matcher :=
  mseq (mlit "\\begin\x7b".data)
    (mseq (mmany1 isWordChar) (mchar (· == '\x7d')))

/-- The LaTeX block-close regex `^\\end\{\w+\}`. -/
def endM : Matcher :=
  mseq (mlit "\\end\x7b".data)
    (mseq (mmany1 isWordChar) (mchar (· == '\x7d')))

/-- The LaTeX command regex `^\\\w+`. -/
def cmdM : Matcher :=
  mseq (mchar (· == '\\')) (mmany1 isWordChar)

/-- The inline-math regex `^\$[^$]*\$`. -/
def mathM : Matcher :=
  mseq (mchar (· == '$'))
    (mseq (mmany (fun c => !(c == '$'))) (mchar (· == '$')))

/-- Run a matcher at the start of the input (`Regex::find` on an anchored
pattern), returning the remainder after the preferred match. -/
def runMatcher (m : Matcher) (s : List Char) : Option (List Char) :=
  m s none (fun r _ => some r)

/-- The list `SKIP_PATTERNS` of `src/lib.rs`, in source order. -/
def SKIP_PATTERNS : List Matcher :=
  [urlM, emailM, hashtagM, beginM, endM, cmdM, mathM]

/-- The function `find_skip_match` of `src/lib.rs`: the first pattern (in order) that
matches at the start wins; the result is the match length in bytes. -/
def find_skip_match (s : List Char) : Option Nat :=
  (SKIP_PATTERNS.findSome? (fun m => runMatcher m s)).map
    (fun r => utf8Len s - utf8Len r)

/-!
## The converters

Both converters iterate over `char_indices` with peeking; they are
embedded as fuel-indexed structural recursions over the decoded character
list (the fuel, set to the input length at the top level, dominates the
iteration count since every loop iteration consumes at least one
character).  Byte positions (`pos`, `skip_until`, slice offsets) are
carried explicitly.
-/

/-- The characters of the byte slice `s[0..n]` (Rust slicing at a skip
span; the regex match length always falls on a character boundary). -/
def takeBytesChars : Nat → List Char → List Char
  | 0, _ => []
  | _, [] => []
  | n + 1, c :: rest =>
    if c.utf8Size ≤ n + 1 then c :: takeBytesChars (n + 1 - c.utf8Size) rest
    else []

/-- Models `input.get(pos..pos+n)` relative to the current position:
`some` prefix exactly when `n` bytes end on a character boundary. -/
def prefixOfBytes : Nat → List Char → Option (List Char)
  | 0, _ => some []
  | _ + 1, [] => none
  | n + 1, c :: rest =>
    if c.utf8Size ≤ n + 1 then
      (prefixOfBytes (n + 1 - c.utf8Size) rest).map (c :: ·)
    else none

/-- The descending exception-probe loop of `lat_to_cyr`
(`for len in (1..=check_len).rev()`): test byte lengths from `n` down to
1; a length whose lowercase-folded slice is in `EXCEPTIONS` wins. -/
def exceptionProbe (r : List Char) : Nat → Option Nat
  | 0 => none
  | n + 1 =>
    match prefixOfBytes (n + 1) r with
    | some p =>
      if strToLower p ∈ EXCEPTIONS then some (n + 1)
      else exceptionProbe r n
    | none => exceptionProbe r n

/-- The exception check of `lat_to_cyr` at the current position:
`check_len = min(MAX_EXCEPTION_LEN, remaining_len)`, then the descending
probe. -/
def findExceptionLen (r : List Char) : Option Nat :=
  exceptionProbe r (min MAX_EXCEPTION_LEN (utf8Len r))

/-- Rust's `cyr.to_uppercase()` applied when the source character was uppercase
(the case-preservation step shared by both converters). -/
def caseAdjust (c cyr : Char) : Char :=
  if rustIsUpper c then rustToUpper cyr else cyr

/-- The function `process_char` of `src/lib.rs`: translate one Latin character, with
optional digraph lookahead at the peeked character.  Returns the emitted
characters and whether the peeked character was consumed. -/
def process_char (c : Char) (next? : Option Char) (doubles : Bool) :
    List Char × Bool :=
  let singleOut : List Char :=
    match LAT_TO_CYR [rustToLower c] with
    | some cyr => [caseAdjust c cyr]
    | none => [c]
  match doubles, next? with
  | true, some n =>
    match LAT_TO_CYR [rustToLower c, rustToLower n] with
    | some cyr => ([caseAdjust c cyr], true)
    | _ => (singleOut, false)
  | _, _ => (singleOut, false)

/-- The loop of `cyr_to_lat`: skip-span test first, then table lookup
with case propagation; the second character of a digraph is uppercased
exactly when the peeked next source character is uppercase. -/
def cyrToLatGo : Nat → List Char → List Char
  | 0, _ => []
  | _ + 1, [] => []
  | fuel + 1, c :: rest =>
    match find_skip_match (c :: rest) with
    | some skipBytes =>
      let skipped := takeBytesChars skipBytes (c :: rest)
      skipped ++ cyrToLatGo fuel (List.drop skipped.length (c :: rest))
    | none =>
      match CYR_TO_LAT (rustToLower c) with
      | some [] => cyrToLatGo fuel rest
      | some (l0 :: ltail) =>
        (if rustIsUpper c then rustToUpper l0 else l0) ::
          (match ltail with
           | [] => cyrToLatGo fuel rest
           | l1 :: _ =>
             (match rest.head? with
              | some cn => if rustIsUpper cn then rustToUpper l1 else l1
              | none => l1) :: cyrToLatGo fuel rest)
      | none => c :: cyrToLatGo fuel rest

/-- The loop of `lat_to_cyr`: skip-span test first (leaving `skip_until`
untouched), then the suppression test `pos < skip_until`, then the
exception probe, then `process_char` with or without digraph lookahead. -/
def latToCyrGo : Nat → List Char → Nat → Nat → List Char
  | 0, _, _, _ => []
  | _ + 1, [], _, _ => []
  | fuel + 1, c :: rest, pos, skipUntil =>
    match find_skip_match (c :: rest) with
    | some skipBytes =>
      let skipped := takeBytesChars skipBytes (c :: rest)
      skipped ++ latToCyrGo fuel (List.drop skipped.length (c :: rest))
        (pos + utf8Len skipped) skipUntil
    | none =>
      if pos < skipUntil then
        (process_char c rest.head? false).1 ++
          latToCyrGo fuel rest (pos + c.utf8Size) skipUntil
      else
        match findExceptionLen (c :: rest) with
        | some len =>
          (process_char c rest.head? false).1 ++
            latToCyrGo fuel rest (pos + c.utf8Size) (pos + len)
        | none =>
          let pr := process_char c rest.head? true
          if pr.2 then
            pr.1 ++ latToCyrGo fuel rest.tail
              (pos + c.utf8Size +
                (match rest.head? with | some n => n.utf8Size | none => 0))
              skipUntil
          else
            pr.1 ++ latToCyrGo fuel rest (pos + c.utf8Size) skipUntil

/-- The function `cyr_to_lat` of `src/lib.rs`. -/
def cyr_to_lat (s : String) : String :=
  String.mk (cyrToLatGo s.data.length s.data)

/-- The function `lat_to_cyr` of `src/lib.rs`. -/
def lat_to_cyr (s : String) : String :=
  String.mk (latToCyrGo s.data.length s.data 0 0)

/-!
## Auxiliary definitions used by the verification
-/

/-- The probe's success test at byte length `L`: the slice exists (lands
on a character boundary) and its lowercase folding is in `EXCEPTIONS`. -/
def excMatchAtB (r : List Char) (L : Nat) : Bool :=
  match prefixOfBytes L r with
  | some p => decide (strToLower p ∈ EXCEPTIONS)
  | none => false

/-- A matcher only hands its continuation a suffix of its input. -/
def ConsumesSuffix (m : Matcher) : Prop :=
  ∀ s prev k res, m s prev k = some res →
    ∃ s' p', s' <:+ s ∧ k s' p' = some res

/-- The characters without which no skip pattern can match: `.` for the
URL and email rules (both contain a mandatory literal period), `#` for
hashtag, `\` for the three LaTeX rules and `$` for inline math. -/
def skipTriggers : List Char := ['.', '#', '\\', '$']

/-- Inputs containing none of the skip-trigger characters. -/
def noSkipChars (s : List Char) : Prop := ∀ c ∈ s, c ∉ skipTriggers

/-- The 30 lowercase Cyrillic letters (the keys of `CYR_TO_LAT`). -/
def cyrLowerLetters : List Char :=
  ['а', 'б', 'в', 'г', 'д', 'ђ', 'е', 'ж', 'з', 'и', 'ј', 'к', 'л', 'љ',
   'м', 'н', 'њ', 'о', 'п', 'р', 'с', 'т', 'ћ', 'у', 'ф', 'х', 'ц', 'ч',
   'џ', 'ш']

/-- The 30 uppercase Cyrillic letters. -/
def cyrUpperLetters : List Char :=
  ['А', 'Б', 'В', 'Г', 'Д', 'Ђ', 'Е', 'Ж', 'З', 'И', 'Ј', 'К', 'Л', 'Љ',
   'М', 'Н', 'Њ', 'О', 'П', 'Р', 'С', 'Т', 'Ћ', 'У', 'Ф', 'Х', 'Ц', 'Ч',
   'Џ', 'Ш']

/-- The 27 lowercase Latin letters appearing in the mapping's forms. -/
def latLowerLetters : List Char :=
  ['a', 'b', 'c', 'd', 'e', 'f', 'g', 'h', 'i', 'j', 'k', 'l', 'm', 'n',
   'o', 'p', 'r', 's', 't', 'u', 'v', 'z', 'ć', 'č', 'đ', 'š', 'ž']

/-- Their uppercase forms. -/
def latUpperLetters : List Char :=
  ['A', 'B', 'C', 'D', 'E', 'F', 'G', 'H', 'I', 'J', 'K', 'L', 'M', 'N',
   'O', 'P', 'R', 'S', 'T', 'U', 'V', 'Z', 'Ć', 'Č', 'Đ', 'Š', 'Ž']

/-- All letters of both alphabets, in both cases. -/
def bothAlphabets : List Char :=
  cyrLowerLetters ++ cyrUpperLetters ++ latLowerLetters ++ latUpperLetters

/-- Characters outside both alphabets (the ones C8 is about). -/
def outsideAlphabets (c : Char) : Bool :=
  !(bothAlphabets.contains c)

/-- Characters outside both alphabets whose lowercase folding is also
outside both alphabets: the characters the converters can never touch.
The two code points U+212A and U+0130 lie outside both alphabets yet
case-fold into the reverse table's key set, so they are excluded here. -/
def trulyOutside (c : Char) : Bool :=
  !(bothAlphabets.contains c) && !(bothAlphabets.contains (rustToLower c))

/-- No suffix of `s` matches a skip pattern (decidable form). -/
def noSkipB (s : List Char) : Bool :=
  s.tails.all (fun t => (find_skip_match t).isNone)

/-- The six Cyrillic letters whose Latin form is a digraph. -/
def cyrDigraphLetters : List Char :=
  ['љ', 'њ', 'џ', 'Љ', 'Њ', 'Џ']

/-- The Cyrillic letters with single-character Latin forms. -/
def cyrSingleLetters : List Char :=
  (cyrLowerLetters ++ cyrUpperLetters).filter
    (fun c => !(cyrDigraphLetters.contains c))

/-- The non-letters allowed alongside the letters in the round-trip
statements: ASCII digits, the whitespace characters space, tab, line feed
and carriage return, and ASCII punctuation (including the four characters
that can open a skip span, whose absence of effect is then a separate
hypothesis of the round-trip statement).  Every entry is unmapped in both
tables, caseless and equal to its own lowercase folding. -/
def safeOthers : List Char :=
  ['0', '1', '2', '3', '4', '5', '6', '7', '8', '9', ' ', '\t', '\n',
   '\r', ',', '!', '?', ';', ':', '-', '(', ')', '@', '%', '&', '*', '+',
   '/', '=', '_', '~', '<', '>', '[', ']', '|', '^', '#', '\\', '$',
   '\x7b', '\x7d']

/-- Characters allowed in the Cyrillic-side round-trip statement. -/
def allowedCyr : List Char :=
  cyrLowerLetters ++ cyrUpperLetters ++ safeOthers

/-- Characters allowed in the Latin-side round-trip statement. -/
def allowedLat : List Char :=
  latLowerLetters ++ latUpperLetters ++ safeOthers

/-- Case of an optional (peeked) character. -/
def optUpper : Option Char → Bool
  | some x => rustIsUpper x
  | none => false

/-- Case of the first character of a list. -/
def headUpper : List Char → Bool
  | [] => false
  | c :: _ => rustIsUpper c

/-- The first character `cyr_to_lat` emits for `c` (independent of the
peeked character). -/
def imageHead (c : Char) : Char :=
  match CYR_TO_LAT (rustToLower c) with
  | some (l0 :: _) => if rustIsUpper c then rustToUpper l0 else l0
  | _ => c

/-- The second character `cyr_to_lat` emits for a digraph letter `c`,
given the case `b` of the peeked character. -/
def cyrSecond (c : Char) (b : Bool) : Char :=
  match CYR_TO_LAT (rustToLower c) with
  | some (_ :: l1 :: _) => if b then rustToUpper l1 else l1
  | _ => c

/-- What the loop body of `cyr_to_lat` emits for `c` with peeked
character `next?`, in the branch with no skip span. -/
def cyrEmit (c : Char) (next? : Option Char) : List Char :=
  match CYR_TO_LAT (rustToLower c) with
  | some [] => []
  | some (l0 :: ltail) =>
    (if rustIsUpper c then rustToUpper l0 else l0) ::
      (match ltail with
       | [] => []
       | l1 :: _ =>
         [match next? with
          | some cn => if rustIsUpper cn then rustToUpper l1 else l1
          | none => l1])
  | none => [c]

/-- The function `cyr_to_lat` restricted to inputs on which no skip span ever fires. -/
def cyrImage : List Char → List Char
  | [] => []
  | c :: rest => cyrEmit c rest.head? ++ cyrImage rest

/-- What `process_char` emits for a single character (no digraph). -/
def latProcessOne (c : Char) : List Char :=
  match LAT_TO_CYR [rustToLower c] with
  | some cyr => [caseAdjust c cyr]
  | none => [c]

/-- The function `lat_to_cyr` restricted to inputs on which no skip span and no
exception ever fires: eager digraph merging with 1-character fallback. -/
def latProcess : List Char → List Char
  | [] => []
  | [c] => latProcessOne c
  | c1 :: c2 :: rest =>
    match LAT_TO_CYR [rustToLower c1, rustToLower c2] with
    | some cyr => caseAdjust c1 cyr :: latProcess rest
    | none => latProcessOne c1 ++ latProcess (c2 :: rest)

/-- The last (lowercase) character of the Latin form of `c`. -/
def formLast (c : Char) : Char :=
  match CYR_TO_LAT (rustToLower c) with
  | some (l :: ls) => (l :: ls).getLastD l
  | _ => rustToLower c

/-- The second (lowercase) character of the Latin form of `c`, when the
form is a digraph. -/
def formSnd (c : Char) : Char :=
  match CYR_TO_LAT (rustToLower c) with
  | some (_ :: l1 :: _) => l1
  | _ => c

/-- An adjacent source pair whose Latin images abut into a digraph key
(нј, лј or дж in any case mix): the only pairs whose images would be
merged back into a single letter. -/
def cyrAmbigPair (c1 c2 : Char) : Bool :=
  (latPair (formLast c1) (rustToLower (imageHead c2))).isSome

/-- No adjacent ambiguous pair anywhere in the input. -/
def noAmbigPairs : List Char → Bool
  | c1 :: c2 :: rest => !(cyrAmbigPair c1 c2) && noAmbigPairs (c2 :: rest)
  | _ => true

/-- Whether an adjacent Latin pair case-folds to a digraph key. -/
def isKeyPairB (c1 c2 : Char) : Bool :=
  (latPair (rustToLower c1) (rustToLower c2)).isSome

/-- At every digraph pair, the second letter's case agrees with the case
of the character following the pair (the condition under which the
digraph's case information survives the round trip). -/
def pairCasesOK : List Char → Bool
  | c1 :: c2 :: rest =>
    (if isKeyPairB c1 c2 then rustIsUpper c2 == headUpper rest else true) &&
      pairCasesOK (c2 :: rest)
  | _ => true

/-- No suffix of `s` begins with an exception-set match. -/
def exceptionFreeB (s : List Char) : Bool :=
  s.tails.all (fun t => (findExceptionLen t).isNone)

/-- Per-character facts about single-letter reverse processing, packaged
as a boolean so they can be established by evaluation over the finite
alphabet. -/
def latSingleFactB (c : Char) : Bool :=
  decide (headUpper (latProcessOne c) = rustIsUpper c) &&
  (match latSingle (rustToLower c) with
   | some k =>
     decide (caseAdjust c k ∈ cyrSingleLetters) &&
     decide (imageHead (caseAdjust c k) = c)
   | none => decide (CYR_TO_LAT (rustToLower c) = none))

/-- Per-pair facts about digraph merging, packaged as a boolean. -/
def latPairFactB (c1 c2 : Char) : Bool :=
  match latPair (rustToLower c1) (rustToLower c2) with
  | some k =>
    decide (caseAdjust c1 k ∈ cyrDigraphLetters) &&
    decide (imageHead (caseAdjust c1 k) = c1) &&
    decide (cyrSecond (caseAdjust c1 k) (rustIsUpper c2) = c2) &&
    decide (rustIsUpper (caseAdjust c1 k) = rustIsUpper c1) &&
    decide (caseAdjust c1 k ∉ skipTriggers)
  | none => true

/-!
## Basic lemmas about byte slicing
-/

theorem utf8Len_append (a b : List Char) :
    utf8Len (a ++ b) = utf8Len a + utf8Len b := by
  simp [utf8Len]

theorem utf8Len_cons (c : Char) (s : List Char) :
    utf8Len (c :: s) = c.utf8Size + utf8Len s := by
  simp [utf8Len]

/-- Slicing at the byte length of a prefix recovers exactly that prefix. -/
theorem takeBytesChars_exact : ∀ (pre suf : List Char),
    takeBytesChars (utf8Len pre) (pre ++ suf) = pre := by
  intro pre
  induction pre with
  | nil => intro suf; simp [utf8Len, takeBytesChars]
  | cons c pre ih =>
    intro suf
    have hc : 1 ≤ c.utf8Size := c.utf8Size_pos
    have hlen : utf8Len (c :: pre) = (c.utf8Size + utf8Len pre - 1) + 1 := by
      rw [utf8Len_cons]; omega
    rw [hlen]
    show takeBytesChars _ (c :: (pre ++ suf)) = _
    rw [takeBytesChars]
    have : c.utf8Size ≤ c.utf8Size + utf8Len pre - 1 + 1 := by omega
    rw [if_pos this]
    have : c.utf8Size + utf8Len pre - 1 + 1 - c.utf8Size = utf8Len pre := by omega
    rw [this, ih]

/-- The slice `takeBytesChars` always yields a prefix of the input. -/
theorem takeBytesChars_append_drop : ∀ (n : Nat) (s : List Char),
    takeBytesChars n s ++ List.drop (takeBytesChars n s).length s = s := by
  intro n
  induction n using Nat.strong_induction_on with
  | _ n ih =>
    intro s
    match n, s with
    | 0, s => simp [takeBytesChars]
    | _ + 1, [] => simp [takeBytesChars]
    | n + 1, c :: rest =>
      rw [takeBytesChars]
      by_cases h : c.utf8Size ≤ n + 1
      · rw [if_pos h]
        have hc : 1 ≤ c.utf8Size := c.utf8Size_pos
        have := ih (n + 1 - c.utf8Size) (by omega) rest
        simpa using this
      · rw [if_neg h]; simp

/-!
## Lemmas about the matcher combinators
-/

theorem mchar_eq_some {p : Char → Bool} {s : List Char} {prev : Option Char}
    {k : List Char → Option Char → Option (List Char)} {res : List Char}
    (h : mchar p s prev k = some res) :
    ∃ c rest, s = c :: rest ∧ p c = true ∧ k rest (some c) = some res := by
  match s with
  | [] => cases h
  | c :: rest =>
    rw [mchar] at h
    by_cases hc : p c
    · rw [if_pos hc] at h
      exact ⟨c, rest, rfl, hc, h⟩
    · rw [if_neg hc] at h
      cases h

theorem mlit_eq_some : ∀ {t s : List Char} {prev : Option Char}
    {k : List Char → Option Char → Option (List Char)} {res : List Char},
    mlit t s prev k = some res →
    ∃ s' p', s = t ++ s' ∧ k s' p' = some res := by
  intro t
  induction t with
  | nil => intro s prev k res h; exact ⟨s, prev, rfl, h⟩
  | cons a t ih =>
    intro s prev k res h
    match s with
    | [] => cases h
    | c :: rest =>
      rw [mlit] at h
      by_cases hc : c = a
      · rw [if_pos hc] at h
        obtain ⟨s', p', heq, hk⟩ := ih h
        exact ⟨s', p', by rw [List.cons_append, ← hc, heq], hk⟩
      · rw [if_neg hc] at h
        cases h

theorem consumesSuffix_mchar (p : Char → Bool) : ConsumesSuffix (mchar p) := by
  intro s prev k res h
  obtain ⟨c, rest, rfl, _, hk⟩ := mchar_eq_some h
  exact ⟨rest, some c, List.suffix_cons c rest, hk⟩

theorem consumesSuffix_mlit (t : List Char) : ConsumesSuffix (mlit t) := by
  intro s prev k res h
  obtain ⟨s', p', rfl, hk⟩ := mlit_eq_some h
  exact ⟨s', p', ⟨t, rfl⟩, hk⟩

theorem consumesSuffix_mseq {a b : Matcher} (ha : ConsumesSuffix a)
    (hb : ConsumesSuffix b) : ConsumesSuffix (mseq a b) := by
  intro s prev k res h
  rw [mseq] at h
  obtain ⟨s1, p1, hs1, hk1⟩ := ha _ _ _ _ h
  obtain ⟨s2, p2, hs2, hk2⟩ := hb _ _ _ _ hk1
  exact ⟨s2, p2, hs2.trans hs1, hk2⟩

theorem consumesSuffix_mopt {a : Matcher} (ha : ConsumesSuffix a) :
    ConsumesSuffix (mopt a) := by
  intro s prev k res h
  rw [mopt] at h
  rcases hx : a s prev k with _ | v
  · rw [hx] at h
    simp only [Option.none_orElse] at h
    exact ⟨s, prev, List.suffix_refl s, h⟩
  · rw [hx] at h
    simp only [Option.some_orElse] at h
    rw [← h]
    exact ha _ _ _ _ hx

theorem consumesSuffix_mmany (p : Char → Bool) : ConsumesSuffix (mmany p) := by
  intro s
  induction s with
  | nil =>
    intro prev k res h
    rw [mmany] at h
    exact ⟨[], prev, List.suffix_refl _, h⟩
  | cons c rest ih =>
    intro prev k res h
    rw [mmany] at h
    by_cases hc : p c
    · rw [if_pos hc] at h
      rcases hx : mmany p rest (some c) k with _ | v
      · rw [hx] at h
        simp only [Option.none_orElse] at h
        exact ⟨c :: rest, prev, List.suffix_refl _, h⟩
      · rw [hx] at h
        simp only [Option.some_orElse] at h
        obtain ⟨s', p', hs', hk⟩ := ih _ _ _ hx
        rw [← h]
        exact ⟨s', p', hs'.trans (List.suffix_cons c rest), hk⟩
    · rw [if_neg hc] at h
      exact ⟨c :: rest, prev, List.suffix_refl _, h⟩

theorem consumesSuffix_mmany1 (p : Char → Bool) : ConsumesSuffix (mmany1 p) :=
  consumesSuffix_mseq (consumesSuffix_mchar p) (consumesSuffix_mmany p)

theorem consumesSuffix_mrep (p : Char → Bool) : ∀ (s : List Char) lo hi prev k
    res, mrep p lo hi s prev k = some res →
    ∃ s' p', s' <:+ s ∧ k s' p' = some res := by
  intro s
  induction s with
  | nil =>
    intro lo hi prev k res h
    rcases hi with _ | hi <;> rw [mrep] at h <;>
    · by_cases hlo : lo = 0
      · rw [if_pos hlo] at h
        exact ⟨[], prev, List.suffix_refl _, h⟩
      · rw [if_neg hlo] at h
        cases h
  | cons c rest ih =>
    intro lo hi prev k res h
    rcases hi with _ | hi <;> rw [mrep] at h
    · by_cases hlo : lo = 0
      · rw [if_pos hlo] at h
        exact ⟨c :: rest, prev, List.suffix_refl _, h⟩
      · rw [if_neg hlo] at h
        cases h
    · by_cases hc : p c
      · rw [if_pos hc] at h
        rcases hx : mrep p (lo - 1) hi rest (some c) k with _ | v
        · rw [hx] at h
          simp only [Option.none_orElse] at h
          by_cases hlo : lo = 0
          · rw [if_pos hlo] at h
            exact ⟨c :: rest, prev, List.suffix_refl _, h⟩
          · rw [if_neg hlo] at h
            cases h
        · rw [hx] at h
          simp only [Option.some_orElse] at h
          obtain ⟨s', p', hs', hk⟩ := ih _ _ _ _ _ hx
          rw [← h]
          exact ⟨s', p', hs'.trans (List.suffix_cons c rest), hk⟩
      · rw [if_neg hc] at h
        by_cases hlo : lo = 0
        · rw [if_pos hlo] at h
          exact ⟨c :: rest, prev, List.suffix_refl _, h⟩
        · rw [if_neg hlo] at h
          cases h

theorem consumesSuffix_mrep' (p : Char → Bool) (lo hi : Nat) :
    ConsumesSuffix (mrep p lo hi) :=
  fun s prev k res h => consumesSuffix_mrep p s lo hi prev k res h

theorem consumesSuffix_mWB : ConsumesSuffix mWB := by
  intro s prev k res h
  simp only [mWB] at h
  split at h
  · exact ⟨s, prev, List.suffix_refl _, h⟩
  · cases h

/-- When the minimum repetition count is positive, `mrep` consumes at
least one character before calling its continuation. -/
theorem mrep_min_one {p : Char → Bool} {lo hi : Nat} {s : List Char}
    {prev : Option Char} {k : List Char → Option Char → Option (List Char)}
    {res : List Char} (hlo : lo ≠ 0) (h : mrep p lo hi s prev k = some res) :
    ∃ c rest, s = c :: rest ∧ ∃ s' p', s' <:+ rest ∧ k s' p' = some res := by
  match s, hi with
  | [], 0 => rw [mrep, if_neg hlo] at h; cases h
  | [], _ + 1 => rw [mrep, if_neg hlo] at h; cases h
  | c :: rest, 0 => rw [mrep, if_neg hlo] at h; cases h
  | c :: rest, hi + 1 =>
    rw [mrep] at h
    by_cases hc : p c
    · rw [if_pos hc] at h
      rcases hx : mrep p (lo - 1) hi rest (some c) k with _ | v
      · rw [hx] at h
        simp only [Option.none_orElse,
          if_neg hlo] at h
        cases h
      · rw [hx] at h
        simp only [Option.some_orElse] at h
        obtain ⟨s', p', hs', hk⟩ := consumesSuffix_mrep p rest _ _ _ _ _ hx
        rw [← h]
        exact ⟨c, rest, rfl, s', p', hs', hk⟩
    · rw [if_neg hc, if_neg hlo] at h
      cases h

theorem consumesSuffix_urlScheme : ConsumesSuffix urlScheme := by
  unfold urlScheme
  exact consumesSuffix_mseq (consumesSuffix_mlit _)
    (consumesSuffix_mseq (consumesSuffix_mopt (consumesSuffix_mchar _))
      (consumesSuffix_mlit _))

theorem consumesSuffix_urlTail :
    ConsumesSuffix (mseq (mchar (· == '.'))
      (mseq (mrep urlClassB 1 6) (mseq mWB (mmany urlClassC)))) :=
  consumesSuffix_mseq (consumesSuffix_mchar _)
    (consumesSuffix_mseq (consumesSuffix_mrep' _ _ _)
      (consumesSuffix_mseq consumesSuffix_mWB (consumesSuffix_mmany _)))

theorem consumesSuffix_urlM : ConsumesSuffix urlM := by
  unfold urlM
  exact consumesSuffix_mseq (consumesSuffix_mopt consumesSuffix_urlScheme)
    (consumesSuffix_mseq (consumesSuffix_mrep' _ _ _) consumesSuffix_urlTail)

theorem consumesSuffix_emailM : ConsumesSuffix emailM := by
  unfold emailM
  exact consumesSuffix_mseq (consumesSuffix_mmany1 _)
    (consumesSuffix_mseq (consumesSuffix_mchar _)
      (consumesSuffix_mseq (consumesSuffix_mmany1 _)
        (consumesSuffix_mseq (consumesSuffix_mchar _)
          (consumesSuffix_mseq (consumesSuffix_mchar _)
            (consumesSuffix_mseq (consumesSuffix_mchar _)
              (consumesSuffix_mmany _))))))

theorem consumesSuffix_hashtagM : ConsumesSuffix hashtagM := by
  unfold hashtagM
  exact consumesSuffix_mseq (consumesSuffix_mchar _) (consumesSuffix_mmany1 _)

theorem consumesSuffix_beginM : ConsumesSuffix beginM := by
  unfold beginM
  exact consumesSuffix_mseq (consumesSuffix_mlit _)
    (consumesSuffix_mseq (consumesSuffix_mmany1 _) (consumesSuffix_mchar _))

theorem consumesSuffix_endM : ConsumesSuffix endM := by
  unfold endM
  exact consumesSuffix_mseq (consumesSuffix_mlit _)
    (consumesSuffix_mseq (consumesSuffix_mmany1 _) (consumesSuffix_mchar _))

theorem consumesSuffix_cmdM : ConsumesSuffix cmdM := by
  unfold cmdM
  exact consumesSuffix_mseq (consumesSuffix_mchar _) (consumesSuffix_mmany1 _)

theorem consumesSuffix_mathM : ConsumesSuffix mathM := by
  unfold mathM
  exact consumesSuffix_mseq (consumesSuffix_mchar _)
    (consumesSuffix_mseq (consumesSuffix_mmany _) (consumesSuffix_mchar _))

theorem runMatcher_suffix {m : Matcher} (hm : ConsumesSuffix m)
    {s r : List Char} (h : runMatcher m s = some r) : r <:+ s := by
  obtain ⟨s', p', hs', hk⟩ := hm _ _ _ _ h
  injection hk with hk
  rw [← hk]
  exact hs'

/-- A successful URL match requires a literal period in the input. -/
theorem urlM_has_dot {s r : List Char} (h : runMatcher urlM s = some r) :
    '.' ∈ s := by
  simp only [runMatcher, urlM, mseq] at h
  obtain ⟨s1, p1, hs1, h1⟩ :=
    consumesSuffix_mopt consumesSuffix_urlScheme _ _ _ _ h
  obtain ⟨s2, p2, hs2, h2⟩ := consumesSuffix_mrep urlClassA s1 1 256 _ _ _ h1
  obtain ⟨c, rest, hcr, hc, -⟩ := mchar_eq_some h2
  have hdot : c = '.' := by simpa using hc
  have : '.' ∈ s2 := by rw [hcr, hdot]; exact List.mem_cons_self _ _
  exact hs1.subset (hs2.subset this)

/-- A successful email match requires a literal period in the input (the
mandatory `\.` before the top-level domain). -/
theorem emailM_has_dot {s r : List Char} (h : runMatcher emailM s = some r) :
    '.' ∈ s := by
  simp only [runMatcher, emailM, mmany1, mseq] at h
  obtain ⟨c0, rest0, hcr0, -, h1⟩ := mchar_eq_some h
  obtain ⟨s1, p1, hs1, h2⟩ := consumesSuffix_mmany emailClassL rest0 _ _ _ h1
  obtain ⟨c1, rest1, hcr1, -, h3⟩ := mchar_eq_some h2
  obtain ⟨c2, rest2, hcr2, -, h4⟩ := mchar_eq_some h3
  obtain ⟨s2, p2, hs2, h5⟩ := consumesSuffix_mmany emailClassD rest2 _ _ _ h4
  obtain ⟨c3, rest3, hcr3, hc3, -⟩ := mchar_eq_some h5
  have hdot : c3 = '.' := by simpa using hc3
  have m1 : '.' ∈ s2 := by rw [hcr3, hdot]; exact List.mem_cons_self _ _
  have m2 : '.' ∈ rest1 := by
    rw [hcr2]
    exact List.mem_cons_of_mem _ (hs2.subset m1)
  have m3 : '.' ∈ s1 := by rw [hcr1]; exact List.mem_cons_of_mem _ m2
  rw [hcr0]
  exact List.mem_cons_of_mem _ (hs1.subset m3)

/-- A successful hashtag match starts with `#`. -/
theorem hashtagM_has_hash {s r : List Char}
    (h : runMatcher hashtagM s = some r) : '#' ∈ s := by
  simp only [runMatcher, hashtagM, mseq] at h
  obtain ⟨c, rest, hcr, hc, -⟩ := mchar_eq_some h
  have : c = '#' := by simpa using hc
  rw [hcr, this]
  exact List.mem_cons_self _ _

/-- A successful LaTeX block-open match starts with a backslash. -/
theorem beginM_has_bslash {s r : List Char}
    (h : runMatcher beginM s = some r) : '\\' ∈ s := by
  simp only [runMatcher, beginM, mseq] at h
  obtain ⟨s', p', hlit, -⟩ := mlit_eq_some h
  rw [hlit]
  exact List.mem_append_left _ (by decide)

/-- A successful LaTeX block-close match starts with a backslash. -/
theorem endM_has_bslash {s r : List Char}
    (h : runMatcher endM s = some r) : '\\' ∈ s := by
  simp only [runMatcher, endM, mseq] at h
  obtain ⟨s', p', hlit, -⟩ := mlit_eq_some h
  rw [hlit]
  exact List.mem_append_left _ (by decide)

/-- A successful LaTeX command match starts with a backslash. -/
theorem cmdM_has_bslash {s r : List Char}
    (h : runMatcher cmdM s = some r) : '\\' ∈ s := by
  simp only [runMatcher, cmdM, mseq] at h
  obtain ⟨c, rest, hcr, hc, -⟩ := mchar_eq_some h
  have : c = '\\' := by simpa using hc
  rw [hcr, this]
  exact List.mem_cons_self _ _

/-- A successful inline-math match starts with a dollar sign. -/
theorem mathM_has_dollar {s r : List Char}
    (h : runMatcher mathM s = some r) : '$' ∈ s := by
  simp only [runMatcher, mathM, mseq] at h
  obtain ⟨c, rest, hcr, hc, -⟩ := mchar_eq_some h
  have : c = '$' := by simpa using hc
  rw [hcr, this]
  exact List.mem_cons_self _ _

/-- A matcher whose first element is a single mandatory character match
consumes at least one character. -/
theorem strict_of_mchar_head {p : Char → Bool} {B : Matcher}
    (hB : ConsumesSuffix B) {s r : List Char}
    (h : runMatcher (mseq (mchar p) B) s = some r) : r.length < s.length := by
  simp only [runMatcher, mseq] at h
  obtain ⟨c, rest, hcr, hc, hk⟩ := mchar_eq_some h
  obtain ⟨s', p', hs', hk'⟩ := hB _ _ _ _ hk
  injection hk' with hk'
  rw [← hk', hcr]
  have := hs'.length_le
  simp only [List.length_cons]
  omega

/-- A matcher whose first element is a nonempty literal consumes at least
one character. -/
theorem strict_of_mlit_head {t : List Char} (ht : t ≠ []) {B : Matcher}
    (hB : ConsumesSuffix B) {s r : List Char}
    (h : runMatcher (mseq (mlit t) B) s = some r) : r.length < s.length := by
  simp only [runMatcher, mseq] at h
  obtain ⟨s1, p1, hlit, hk⟩ := mlit_eq_some h
  obtain ⟨s', p', hs', hk'⟩ := hB _ _ _ _ hk
  injection hk' with hk'
  rw [← hk', hlit]
  have h1 := hs'.length_le
  have h2 : 0 < t.length := List.length_pos.2 ht
  simp only [List.length_append]
  omega

/-- The URL matcher consumes at least one character. -/
theorem urlM_strict {s r : List Char} (h : runMatcher urlM s = some r) :
    r.length < s.length := by
  simp only [runMatcher, urlM, mseq, mopt] at h
  rw [Option.orElse_eq_some] at h
  rcases h with h | ⟨-, h⟩
  · simp only [urlScheme, mseq] at h
    obtain ⟨sa, pa, hsa, hk⟩ := mlit_eq_some h
    obtain ⟨s1, p1, hs1, hk1⟩ :=
      (consumesSuffix_mseq (consumesSuffix_mopt (consumesSuffix_mchar _))
        (consumesSuffix_mlit _)) _ _ _ _ hk
    obtain ⟨s2, p2, hs2, hk2⟩ :=
      consumesSuffix_mrep urlClassA s1 1 256 _ _ _ hk1
    obtain ⟨s3, p3, hs3, hk3⟩ := consumesSuffix_urlTail _ _ _ _ hk2
    injection hk3 with hk3
    rw [← hk3, hsa]
    have l1 := hs3.length_le
    have l2 := hs2.length_le
    have l3 := hs1.length_le
    simp only [List.length_append]
    have l4 : ("http".data).length = 4 := rfl
    have l5 : (['h', 't', 't', 'p'] : List Char).length = 4 := rfl
    omega
  · obtain ⟨c, rest, hcr, s2, p2, hs2, h2⟩ := mrep_min_one (by omega) h
    obtain ⟨s3, p3, hs3, h3⟩ := consumesSuffix_urlTail _ _ _ _ h2
    injection h3 with h3
    rw [← h3, hcr]
    have l1 := hs3.length_le
    have l2 := hs2.length_le
    simp only [List.length_cons]
    omega

/-- Every successful skip pattern consumes at least one character. -/
theorem skip_pattern_strict {m : Matcher} (hm : m ∈ SKIP_PATTERNS)
    {s r : List Char} (h : runMatcher m s = some r) : r.length < s.length := by
  simp only [SKIP_PATTERNS, List.mem_cons, List.not_mem_nil, or_false] at hm
  rcases hm with rfl | rfl | rfl | rfl | rfl | rfl | rfl
  · exact urlM_strict h
  · exact strict_of_mchar_head
      (consumesSuffix_mseq (consumesSuffix_mmany _)
        (consumesSuffix_mseq (consumesSuffix_mchar _)
          (consumesSuffix_mseq (consumesSuffix_mmany1 _)
            (consumesSuffix_mseq (consumesSuffix_mchar _)
              (consumesSuffix_mseq (consumesSuffix_mchar _)
                (consumesSuffix_mseq (consumesSuffix_mchar _)
                  (consumesSuffix_mmany _))))))) h
  · exact strict_of_mchar_head (consumesSuffix_mmany1 _) h
  · exact strict_of_mlit_head (by decide)
      (consumesSuffix_mseq (consumesSuffix_mmany1 _)
        (consumesSuffix_mchar _)) h
  · exact strict_of_mlit_head (by decide)
      (consumesSuffix_mseq (consumesSuffix_mmany1 _)
        (consumesSuffix_mchar _)) h
  · exact strict_of_mchar_head (consumesSuffix_mmany1 _) h
  · exact strict_of_mchar_head
      (consumesSuffix_mseq (consumesSuffix_mmany _)
        (consumesSuffix_mchar _)) h

theorem skip_pattern_suffix {m : Matcher} (hm : m ∈ SKIP_PATTERNS)
    {s r : List Char} (h : runMatcher m s = some r) : r <:+ s := by
  simp only [SKIP_PATTERNS, List.mem_cons, List.not_mem_nil, or_false] at hm
  rcases hm with rfl | rfl | rfl | rfl | rfl | rfl | rfl
  · exact runMatcher_suffix consumesSuffix_urlM h
  · exact runMatcher_suffix consumesSuffix_emailM h
  · exact runMatcher_suffix consumesSuffix_hashtagM h
  · exact runMatcher_suffix consumesSuffix_beginM h
  · exact runMatcher_suffix consumesSuffix_endM h
  · exact runMatcher_suffix consumesSuffix_cmdM h
  · exact runMatcher_suffix consumesSuffix_mathM h

/-- A successful skip match is a nonempty prefix of the input measured in
whole characters: the reported byte length falls on a character boundary
and covers at least one character. -/
theorem find_skip_match_strict {s : List Char} {n : Nat}
    (h : find_skip_match s = some n) :
    ∃ pre suf, s = pre ++ suf ∧ pre ≠ [] ∧ utf8Len pre = n ∧
      takeBytesChars n s = pre := by
  rw [find_skip_match] at h
  rcases hfs : SKIP_PATTERNS.findSome? (fun m => runMatcher m s) with _ | r
  · rw [hfs] at h; cases h
  · rw [hfs] at h
    simp only [Option.map_some', Option.some.injEq] at h
    obtain ⟨m, hmem, hrun⟩ := List.exists_of_findSome?_eq_some hfs
    have hsuf := skip_pattern_suffix hmem hrun
    have hstrict := skip_pattern_strict hmem hrun
    obtain ⟨pre, hpre⟩ := hsuf
    refine ⟨pre, r, hpre.symm, ?_, ?_, ?_⟩
    · intro hnil
      rw [hnil] at hpre
      simp only [List.nil_append] at hpre
      rw [hpre] at hstrict
      omega
    · have := utf8Len_append pre r
      rw [hpre] at this
      omega
    · have hn : n = utf8Len pre := by
        have := utf8Len_append pre r
        rw [hpre] at this
        omega
      rw [hn, ← hpre]
      exact takeBytesChars_exact pre r

/-- Over inputs containing none of the skip-trigger characters, no skip
pattern matches. -/
theorem find_skip_match_none_of_noSkipChars {s : List Char}
    (h : noSkipChars s) : find_skip_match s = none := by
  rw [find_skip_match]
  have hall : ∀ m ∈ SKIP_PATTERNS, runMatcher m s = none := by
    intro m hm
    rcases hr : runMatcher m s with _ | r
    · rfl
    · exfalso
      simp only [SKIP_PATTERNS, List.mem_cons, List.not_mem_nil,
        or_false] at hm
      rcases hm with rfl | rfl | rfl | rfl | rfl | rfl | rfl
      · exact h '.' (urlM_has_dot hr) (by decide)
      · exact h '.' (emailM_has_dot hr) (by decide)
      · exact h '#' (hashtagM_has_hash hr) (by decide)
      · exact h '\\' (beginM_has_bslash hr) (by decide)
      · exact h '\\' (endM_has_bslash hr) (by decide)
      · exact h '\\' (cmdM_has_bslash hr) (by decide)
      · exact h '$' (mathM_has_dollar hr) (by decide)
  rw [List.findSome?_eq_none_iff.2 hall]
  rfl

/-!
## C5: `find_skip_match` tries the rules in fixed order, first match wins
-/

/-- C5: `find_skip_match` returns `none` iff no rule matches at the
start; otherwise it returns the byte length of the match of the first
rule, in the fixed order URL, email, hashtag, block-open, block-close,
command, inline math, regardless of whether later rules would match
(shorter or longer). -/
theorem C5_first_match_wins (s : List Char) :
    (find_skip_match s = none ↔
      ∀ m ∈ SKIP_PATTERNS, runMatcher m s = none) ∧
    (∀ r, runMatcher urlM s = some r →
      find_skip_match s = some (utf8Len s - utf8Len r)) ∧
    (∀ r, runMatcher urlM s = none → runMatcher emailM s = some r →
      find_skip_match s = some (utf8Len s - utf8Len r)) ∧
    (∀ r, runMatcher urlM s = none → runMatcher emailM s = none →
      runMatcher hashtagM s = some r →
      find_skip_match s = some (utf8Len s - utf8Len r)) ∧
    (∀ r, runMatcher urlM s = none → runMatcher emailM s = none →
      runMatcher hashtagM s = none → runMatcher beginM s = some r →
      find_skip_match s = some (utf8Len s - utf8Len r)) ∧
    (∀ r, runMatcher urlM s = none → runMatcher emailM s = none →
      runMatcher hashtagM s = none → runMatcher beginM s = none →
      runMatcher endM s = some r →
      find_skip_match s = some (utf8Len s - utf8Len r)) ∧
    (∀ r, runMatcher urlM s = none → runMatcher emailM s = none →
      runMatcher hashtagM s = none → runMatcher beginM s = none →
      runMatcher endM s = none → runMatcher cmdM s = some r →
      find_skip_match s = some (utf8Len s - utf8Len r)) ∧
    (∀ r, runMatcher urlM s = none → runMatcher emailM s = none →
      runMatcher hashtagM s = none → runMatcher beginM s = none →
      runMatcher endM s = none → runMatcher cmdM s = none →
      runMatcher mathM s = some r →
      find_skip_match s = some (utf8Len s - utf8Len r)) := by
  refine ⟨?_, ?_, ?_, ?_, ?_, ?_, ?_, ?_⟩
  · constructor
    · intro h m hm
      rw [find_skip_match] at h
      rcases hfs : SKIP_PATTERNS.findSome? (fun m => runMatcher m s)
          with _ | r
      · exact List.findSome?_eq_none_iff.1 hfs m hm
      · rw [hfs] at h; cases h
    · intro hall
      rw [find_skip_match, List.findSome?_eq_none_iff.2 hall]
      rfl
  all_goals
    intro r
    intro hs
    first
      | (intro h1 h2 h3 h4 h5 h6
         rw [find_skip_match, SKIP_PATTERNS]
         simp only [List.findSome?_cons, hs, h1, h2, h3, h4, h5, h6,
           Option.map_some'])
      | (intro h1 h2 h3 h4 h5
         rw [find_skip_match, SKIP_PATTERNS]
         simp only [List.findSome?_cons, hs, h1, h2, h3, h4, h5,
           Option.map_some'])
      | (intro h1 h2 h3 h4
         rw [find_skip_match, SKIP_PATTERNS]
         simp only [List.findSome?_cons, hs, h1, h2, h3, h4,
           Option.map_some'])
      | (intro h1 h2 h3
         rw [find_skip_match, SKIP_PATTERNS]
         simp only [List.findSome?_cons, hs, h1, h2, h3, Option.map_some'])
      | (intro h1 h2
         rw [find_skip_match, SKIP_PATTERNS]
         simp only [List.findSome?_cons, hs, h1, h2, Option.map_some'])
      | (intro h1
         rw [find_skip_match, SKIP_PATTERNS]
         simp only [List.findSome?_cons, hs, h1, Option.map_some'])
      | (rw [find_skip_match, SKIP_PATTERNS]
         simp only [List.findSome?_cons, hs, Option.map_some'])

/-- Witness for C5: on "\begin\x7bx\x7d" the block-open rule (4th in
order) is the first that matches, and on "#ab" the hashtag rule (3rd) is;
`find_skip_match` returns each one's length. -/
theorem C5_first_match_wins_witness :
    find_skip_match "#ab".data = some (utf8Len "#ab".data - utf8Len []) ∧
    find_skip_match "\\begin\x7bx\x7d".data =
      some (utf8Len "\\begin\x7bx\x7d".data - utf8Len []) := by
  constructor
  · exact (C5_first_match_wins "#ab".data).2.2.2.1 [] (by decide) (by decide)
      (by decide)
  · exact (C5_first_match_wins "\\begin\x7bx\x7d".data).2.2.2.2.1 []
      (by decide) (by decide) (by decide) (by decide)

/-!
## C9: the reverse table is the exact inverse of the forward table
-/

/-- C9: every forward entry round-trips through the reverse table; the
three digraph keys are present in the reverse table; every character of a
digraph key is also an independently usable single-character key; and the
only multi-character forms in the forward table are the three digraphs. -/
theorem C9_tables_inverse :
    (∀ c l, CYR_TO_LAT c = some l → LAT_TO_CYR l = some c) ∧
    (LAT_TO_CYR "lj".data = some 'љ' ∧ LAT_TO_CYR "nj".data = some 'њ' ∧
      LAT_TO_CYR "dž".data = some 'џ') ∧
    (LAT_TO_CYR ['n'] = some 'н' ∧ LAT_TO_CYR ['j'] = some 'ј') ∧
    (∀ c1 c2 cyr, latPair c1 c2 = some cyr →
      (latSingle c1).isSome ∧ (latSingle c2).isSome) ∧
    (∀ c l, CYR_TO_LAT c = some l → 2 ≤ l.length →
      l = "lj".data ∨ l = "nj".data ∨ l = "dž".data) := by
  refine ⟨?_, by decide, by decide, ?_, ?_⟩
  · intro c l h
    unfold CYR_TO_LAT at h
    split at h <;>
      first
        | (injection h with h2; subst h2; decide)
        | (cases h)
  · intro c1 c2 cyr h
    unfold latPair at h
    split_ifs at h with h1 h2 h3 <;>
      (obtain ⟨rfl, rfl⟩ := ‹_ = _ ∧ _ = _›; decide)
  · intro c l h hl
    unfold CYR_TO_LAT at h
    split at h <;>
      first
        | (injection h with h2; subst h2; revert hl; decide)
        | (cases h)

/-- Witness for C9: the digraph entry for `'љ'` round-trips, and both
characters of the "dž" digraph key are single-character keys. -/
theorem C9_tables_inverse_witness :
    LAT_TO_CYR ['l', 'j'] = some 'љ' ∧
    (latSingle 'd').isSome ∧ (latSingle 'ž').isSome := by
  refine ⟨C9_tables_inverse.1 'љ' ['l', 'j'] (by decide), ?_, ?_⟩
  · exact (C9_tables_inverse.2.2.2.1 'd' 'ž' 'џ' (by decide)).1
  · exact (C9_tables_inverse.2.2.2.1 'd' 'ž' 'џ' (by decide)).2

/-!
## C10: the URL pattern's optional scheme makes `lat_to_cyr` skip
period-joined plain-letter tokens
-/

/-- C10: "kraj.Nova" consists only of ordinary Latin letters joined by a
single period, yet the whole token matches the URL skip rule (whose
scheme part is optional), so `lat_to_cyr` returns it verbatim with no
letter transliterated. -/
theorem C10_url_scheme_optional :
    (∀ c ∈ "kraj.Nova".data, c.isAlpha ∨ c = '.') ∧
    ("kraj.Nova".data.count '.' = 1) ∧
    find_skip_match "kraj.Nova".data = some (utf8Len "kraj.Nova".data) ∧
    lat_to_cyr "kraj.Nova" = "kraj.Nova" := by
  refine ⟨by decide, by decide, by decide, by decide⟩

/-- Witness for C10 at the first character of the token. -/
theorem C10_url_scheme_optional_witness :
    ('k'.isAlpha ∨ 'k' = '.') ∧ lat_to_cyr "kraj.Nova" = "kraj.Nova" :=
  ⟨C10_url_scheme_optional.1 'k' (by decide), C10_url_scheme_optional.2.2.2⟩

/-!
## C2: digraph case propagation in `cyr_to_lat`
-/

/-- C2: when a Cyrillic letter maps to a two-character digraph, the first
output character is uppercase iff the source letter was, and the second is
uppercase iff the peeked (unconsumed) next source character is uppercase;
in particular the "Džak Ljubavi" / "Džak LJUBAVI" distinction. -/
theorem C2_digraph_case :
    (∀ fuel c rest l1 l2,
      find_skip_match (c :: rest) = none →
      CYR_TO_LAT (rustToLower c) = some [l1, l2] →
      cyrToLatGo (fuel + 1) (c :: rest) =
        (if rustIsUpper c then rustToUpper l1 else l1) ::
          (match rest.head? with
           | some cn => if rustIsUpper cn then rustToUpper l2 else l2
           | none => l2) :: cyrToLatGo fuel rest) ∧
    cyr_to_lat "Џак Љубави" = "Džak Ljubavi" ∧
    cyr_to_lat "Џак ЉУБАВИ" = "Džak LJUBAVI" := by
  refine ⟨?_, by decide, by decide⟩
  intro fuel c rest l1 l2 hskip hmap
  rw [cyrToLatGo, hskip, hmap]

/-- Witness for C2 at a concrete input: `'Џ'` (uppercase) followed by a
lowercase letter produces `'D'` then lowercase `'ž'`. -/
theorem C2_digraph_case_witness :
    cyrToLatGo 3 "Џак".data = 'D' :: 'ž' :: cyrToLatGo 2 "ак".data :=
  (C2_digraph_case.1 2 'Џ' "ак".data 'd' 'ž' (by decide) (by decide)).trans
    (by decide)

/-!
## C3: the exception probe takes the longest matching length
-/

theorem prefixOfBytes_zero (r : List Char) : prefixOfBytes 0 r = some [] := by
  cases r <;> rfl

theorem excMatchAtB_of_none {r : List Char} {L : Nat}
    (hp : prefixOfBytes L r = none) : excMatchAtB r L = false := by
  rw [excMatchAtB, hp]

theorem excMatchAtB_of_some {r p : List Char} {L : Nat}
    (hp : prefixOfBytes L r = some p) :
    excMatchAtB r L = decide (strToLower p ∈ EXCEPTIONS) := by
  rw [excMatchAtB, hp]

theorem excMatchAtB_zero (r : List Char) : excMatchAtB r 0 = false := by
  rw [excMatchAtB_of_some (prefixOfBytes_zero r)]
  decide

theorem exceptionProbe_succ_skip {r : List Char} {n : Nat}
    (hp : prefixOfBytes (n + 1) r = none) :
    exceptionProbe r (n + 1) = exceptionProbe r n := by
  rw [exceptionProbe, hp]

theorem exceptionProbe_succ_hit {r p : List Char} {n : Nat}
    (hp : prefixOfBytes (n + 1) r = some p)
    (hm : strToLower p ∈ EXCEPTIONS) :
    exceptionProbe r (n + 1) = some (n + 1) := by
  rw [exceptionProbe, hp]
  exact if_pos hm

theorem exceptionProbe_succ_miss {r p : List Char} {n : Nat}
    (hp : prefixOfBytes (n + 1) r = some p)
    (hm : strToLower p ∉ EXCEPTIONS) :
    exceptionProbe r (n + 1) = exceptionProbe r n := by
  rw [exceptionProbe, hp]
  exact if_neg hm

theorem exceptionProbe_spec (r : List Char) : ∀ n L,
    exceptionProbe r n = some L ↔
      (L ≤ n ∧ excMatchAtB r L = true ∧
        ∀ L', L < L' → L' ≤ n → excMatchAtB r L' = false) := by
  intro n
  induction n with
  | zero =>
    intro L
    simp only [exceptionProbe]
    constructor
    · intro h; cases h
    · rintro ⟨hL, hm, -⟩
      interval_cases L
      rw [excMatchAtB_zero] at hm
      cases hm
  | succ n ih =>
    intro L
    have couldnt : excMatchAtB r (n + 1) = false →
        (exceptionProbe r n = some L ↔
          (L ≤ n + 1 ∧ excMatchAtB r L = true ∧
            ∀ L', L < L' → L' ≤ n + 1 → excMatchAtB r L' = false)) := by
      intro hmB
      rw [ih]
      constructor
      · rintro ⟨hL, hm, hup⟩
        refine ⟨by omega, hm, fun L' h1 h2 => ?_⟩
        rcases Nat.lt_or_ge L' (n + 1) with h | h
        · exact hup L' h1 (by omega)
        · have hL' : L' = n + 1 := by omega
          rw [hL']; exact hmB
      · rintro ⟨hL, hm, hup⟩
        have hLn : L ≠ n + 1 := by
          intro h; rw [h, hmB] at hm; cases hm
        exact ⟨by omega, hm, fun L' h1 h2 => hup L' h1 (by omega)⟩
    rcases hp : prefixOfBytes (n + 1) r with _ | p
    · rw [exceptionProbe_succ_skip hp]
      exact couldnt (excMatchAtB_of_none hp)
    · by_cases hmem : strToLower p ∈ EXCEPTIONS

      · have hmB : excMatchAtB r (n + 1) = true := by
          rw [excMatchAtB_of_some hp]; exact decide_eq_true hmem
        rw [exceptionProbe_succ_hit hp hmem]
        constructor
        · intro h
          injection h with h
          subst h
          exact ⟨le_refl _, hmB, fun L' h1 h2 => by omega⟩
        · rintro ⟨hL, hm, hup⟩
          rcases Nat.lt_or_ge L (n + 1) with h | h
          · have hbad := hup (n + 1) h (le_refl _)
            rw [hmB] at hbad; cases hbad
          · have hL' : L = n + 1 := by omega
            rw [hL']
      · rw [exceptionProbe_succ_miss hp hmem]
        exact couldnt (by rw [excMatchAtB_of_some hp]; exact decide_eq_false hmem)

/-- If any byte length in range matches, the probe succeeds. -/
theorem exceptionProbe_isSome (r : List Char) : ∀ n L2,
    excMatchAtB r L2 = true → L2 ≤ n →
    ∃ L, exceptionProbe r n = some L ∧ L2 ≤ L := by
  intro n
  induction n with
  | zero =>
    intro L2 hm hle
    interval_cases L2
    rw [excMatchAtB_zero] at hm
    cases hm
  | succ n ih =>
    intro L2 hm hle
    rcases hp : prefixOfBytes (n + 1) r with _ | p
    · have hne : L2 ≠ n + 1 := by
        intro h; rw [h, excMatchAtB_of_none hp] at hm; cases hm
      obtain ⟨L, h1, h2⟩ := ih L2 hm (by omega)
      exact ⟨L, by rw [exceptionProbe_succ_skip hp]; exact h1, h2⟩
    · by_cases hmem : strToLower p ∈ EXCEPTIONS
      · exact ⟨n + 1, exceptionProbe_succ_hit hp hmem, hle⟩
      · have hne : L2 ≠ n + 1 := by
          intro h
          rw [h, excMatchAtB_of_some hp] at hm
          exact hmem (of_decide_eq_true hm)
        obtain ⟨L, h1, h2⟩ := ih L2 hm (by omega)
        exact ⟨L, by rw [exceptionProbe_succ_miss hp hmem]; exact h1, h2⟩

/-- C3: `MAX_EXCEPTION_LEN` is 9; the probe result is characterised as a
matching length with no longer matching length in range (lengths are
scanned from `min MAX_EXCEPTION_LEN remaining` down to 1, first hit
wins); consequently when a longer length also matches, a shorter one is
never the answer. -/
theorem C3_longest_exception :
    MAX_EXCEPTION_LEN = 9 ∧
    (∀ r L, findExceptionLen r = some L ↔
      (L ≤ min MAX_EXCEPTION_LEN (utf8Len r) ∧ excMatchAtB r L = true ∧
        ∀ L', L < L' → L' ≤ min MAX_EXCEPTION_LEN (utf8Len r) →
          excMatchAtB r L' = false)) ∧
    (∀ r L1 L2, excMatchAtB r L2 = true → L1 < L2 →
      L2 ≤ min MAX_EXCEPTION_LEN (utf8Len r) →
      findExceptionLen r ≠ some L1 ∧
        ∃ L, findExceptionLen r = some L ∧ L2 ≤ L) := by
  refine ⟨rfl, fun r L => exceptionProbe_spec r _ L, ?_⟩
  intro r L1 L2 hm hlt hle
  obtain ⟨L, h1, h2⟩ := exceptionProbe_isSome r _ L2 hm hle
  have h1' : findExceptionLen r = some L := h1
  refine ⟨?_, L, h1', h2⟩
  intro hbad
  rw [h1'] at hbad
  injection hbad with hbad
  omega

/-- Witness for C3 at "tanjug": byte length 6 matches, so the probe never
answers the shorter length 3, and indeed answers 6. -/
theorem C3_longest_exception_witness :
    findExceptionLen "tanjug".data ≠ some 3 ∧
      ∃ L, findExceptionLen "tanjug".data = some L ∧ 6 ≤ L := by
  have h := C3_longest_exception.2.2 "tanjug".data 3 6 (by decide) (by decide)
    (by decide)
  exact h

/-!
## C4: an exception sets the suppression marker and disables digraph
merging up to it
-/

/-- C4: when the exception probe matches with length `len`, the
suppression marker becomes `pos + len` and the current character is
processed without digraph lookahead; while `pos < skip_until`, characters
keep being processed one at a time; and the concrete disambiguation
examples hold. -/
theorem C4_exception_suppression :
    (∀ fuel c rest pos skipUntil len,
      find_skip_match (c :: rest) = none →
      ¬ pos < skipUntil →
      findExceptionLen (c :: rest) = some len →
      latToCyrGo (fuel + 1) (c :: rest) pos skipUntil =
        (process_char c rest.head? false).1 ++
          latToCyrGo fuel rest (pos + c.utf8Size) (pos + len)) ∧
    (∀ fuel c rest pos skipUntil,
      find_skip_match (c :: rest) = none →
      pos < skipUntil →
      latToCyrGo (fuel + 1) (c :: rest) pos skipUntil =
        (process_char c rest.head? false).1 ++
          latToCyrGo fuel rest (pos + c.utf8Size) skipUntil) ∧
    lat_to_cyr "Tanjug" = "Танјуг" ∧
    lat_to_cyr "Odžubori ovaj potočić!" = "Оджубори овај поточић!" := by
  refine ⟨?_, ?_, by decide, by decide⟩
  · intro fuel c rest pos skipUntil len hskip hpos hexc
    rw [latToCyrGo, hskip]
    simp only [if_neg hpos, hexc]
  · intro fuel c rest pos skipUntil hskip hpos
    rw [latToCyrGo, hskip]
    simp only [if_pos hpos]

/-- Witness for C4: at the start of "Tanjug" the exception fires with
length 6 (marker 0 + 6) and `'T'` is processed alone; at position 1
(inside the marker) `'a'` is processed alone. -/
theorem C4_exception_suppression_witness :
    latToCyrGo 6 "Tanjug".data 0 0 = 'Т' :: latToCyrGo 5 "anjug".data 1 6 ∧
    latToCyrGo 5 "anjug".data 1 6 = 'а' :: latToCyrGo 4 "njug".data 2 6 := by
  constructor
  · exact (C4_exception_suppression.1 5 'T' "anjug".data 0 0 6 (by decide)
      (by decide) (by decide)).trans (by decide)
  · exact (C4_exception_suppression.2.1 4 'a' "njug".data 1 6 (by decide)
      (by decide)).trans (by decide)

/-!
## C6: skip spans are copied verbatim
-/

/-- C6: when `find_skip_match` returns a span, both converters copy the
span verbatim (the emitted prefix is exactly the input's prefix of that
byte length) and continue after it with no letter-level processing;
`lat_to_cyr` passes `skip_until` through unchanged. -/
theorem C6_skip_verbatim :
    (∀ fuel c rest n,
      find_skip_match (c :: rest) = some n →
      cyrToLatGo (fuel + 1) (c :: rest) =
        takeBytesChars n (c :: rest) ++
          cyrToLatGo fuel
            (List.drop (takeBytesChars n (c :: rest)).length (c :: rest))) ∧
    (∀ fuel c rest n pos skipUntil,
      find_skip_match (c :: rest) = some n →
      latToCyrGo (fuel + 1) (c :: rest) pos skipUntil =
        takeBytesChars n (c :: rest) ++
          latToCyrGo fuel
            (List.drop (takeBytesChars n (c :: rest)).length (c :: rest))
            (pos + utf8Len (takeBytesChars n (c :: rest))) skipUntil) ∧
    (∀ n s, takeBytesChars n s ++ List.drop (takeBytesChars n s).length s
      = s) := by
  refine ⟨?_, ?_, takeBytesChars_append_drop⟩
  · intro fuel c rest n hskip
    rw [cyrToLatGo, hskip]
  · intro fuel c rest n pos skipUntil hskip
    rw [latToCyrGo, hskip]

/-- Witness for C6: the hashtag "#ab" is skipped whole by both
converters, with `skip_until` (here 7) passed through unchanged. -/
theorem C6_skip_verbatim_witness :
    cyrToLatGo 3 "#ab".data = '#' :: 'a' :: 'b' :: cyrToLatGo 2 [] ∧
    latToCyrGo 3 "#ab".data 5 7 =
      '#' :: 'a' :: 'b' :: latToCyrGo 2 [] 8 7 := by
  constructor
  · exact (C6_skip_verbatim.1 2 '#' "ab".data 3 (by decide)).trans (by decide)
  · exact (C6_skip_verbatim.2.1 2 '#' "ab".data 3 5 7 (by decide)).trans
      (by decide)

/-!
## Membership lemmas about the tables and the case model
-/

theorem mem_contains_true {c : Char} {l : List Char} (h : c ∈ l) :
    l.contains c = true := by
  simp only [List.contains_iff_exists_mem_beq]
  exact ⟨c, h, by simp⟩

theorem trulyOutside_of_mem {c : Char} (h : c ∈ bothAlphabets) :
    trulyOutside c = false := by
  simp only [trulyOutside, mem_contains_true h, Bool.not_true,
    Bool.false_and]

theorem trulyOutside_of_lower_mem {c : Char}
    (h : rustToLower c ∈ bothAlphabets) : trulyOutside c = false := by
  simp only [trulyOutside, mem_contains_true h, Bool.not_true,
    Bool.and_false]

theorem CYR_TO_LAT_key_mem {c : Char} {l : List Char}
    (h : CYR_TO_LAT c = some l) : c ∈ bothAlphabets := by
  unfold CYR_TO_LAT at h
  split at h <;>
    first
      | (injection h; subst_vars; decide)
      | (cases h)

theorem CYR_TO_LAT_form_mem {c : Char} {l : List Char}
    (h : CYR_TO_LAT c = some l) : ∀ x ∈ l, x ∈ latLowerLetters := by
  unfold CYR_TO_LAT at h
  split at h <;>
    first
      | (injection h with h; subst h; decide)
      | (cases h)

theorem CYR_TO_LAT_lookup_out {c : Char}
    (h : (CYR_TO_LAT (rustToLower c)).isSome = true) :
    trulyOutside c = false := by
  rcases hm : CYR_TO_LAT (rustToLower c) with _ | l
  · rw [hm] at h; cases h
  · exact trulyOutside_of_lower_mem (CYR_TO_LAT_key_mem hm)

theorem latSingle_key_mem {c x : Char} (h : latSingle c = some x) :
    c ∈ bothAlphabets := by
  unfold latSingle at h
  split at h <;>
    first
      | (injection h; subst_vars; decide)
      | (cases h)

theorem latSingle_val_mem {c x : Char} (h : latSingle c = some x) :
    x ∈ cyrLowerLetters := by
  unfold latSingle at h
  split at h <;>
    first
      | (injection h with h; subst h; decide)
      | (cases h)

theorem latPair_parts {a b x : Char} (h : latPair a b = some x) :
    x ∈ cyrLowerLetters ∧ (a = 'd' ∨ a = 'l' ∨ a = 'n') ∧
      (b = 'ž' ∨ b = 'j') := by
  unfold latPair at h
  split_ifs at h with h1 h2 h3 <;>
    (obtain ⟨rfl, rfl⟩ := ‹_ = _ ∧ _ = _›
     injection h with h
     subst h
     refine ⟨by decide, by decide, by decide⟩)

theorem latSingle_lookup_out {c : Char}
    (h : (LAT_TO_CYR [rustToLower c]).isSome = true) :
    trulyOutside c = false := by
  rcases hm : latSingle (rustToLower c) with _ | x
  · rw [show LAT_TO_CYR [rustToLower c] = latSingle (rustToLower c) from rfl,
      hm] at h
    cases h
  · exact trulyOutside_of_lower_mem (latSingle_key_mem hm)

theorem latPair_lookup_out {c n : Char}
    (h : (LAT_TO_CYR [rustToLower c, rustToLower n]).isSome = true) :
    trulyOutside c = false ∧ trulyOutside n = false := by
  rcases hm : latPair (rustToLower c) (rustToLower n) with _ | x
  · rw [show LAT_TO_CYR [rustToLower c, rustToLower n] =
      latPair (rustToLower c) (rustToLower n) from rfl, hm] at h
    cases h
  · obtain ⟨-, ha, hb⟩ := latPair_parts hm
    constructor
    · apply trulyOutside_of_lower_mem
      rcases ha with h | h | h <;> rw [h] <;> decide
    · apply trulyOutside_of_lower_mem
      rcases hb with h | h <;> rw [h] <;> decide

theorem upper_latLower_mem {x : Char} (h : x ∈ latLowerLetters) :
    rustToUpper x ∈ bothAlphabets ∧ x ∈ bothAlphabets := by
  revert h
  revert x
  decide

theorem upper_cyrLower_mem {x : Char} (h : x ∈ cyrLowerLetters) :
    rustToUpper x ∈ bothAlphabets ∧ x ∈ bothAlphabets := by
  revert h
  revert x
  decide

theorem caseAdjust_cyr_mem {c x : Char} (h : x ∈ cyrLowerLetters) :
    caseAdjust c x ∈ bothAlphabets := by
  rw [caseAdjust]
  rcases hb : rustIsUpper c
  · simpa using (upper_cyrLower_mem h).2
  · simpa using (upper_cyrLower_mem h).1

/-!
## Branch equations of the converter loops
-/

theorem cyrToLatGo_nil (fuel : Nat) : cyrToLatGo fuel [] = [] := by
  cases fuel <;> rfl

theorem latToCyrGo_nil (fuel pos su : Nat) : latToCyrGo fuel [] pos su = [] := by
  cases fuel <;> rfl

theorem cyrToLatGo_skip {c : Char} {rest : List Char} {n : Nat} (fuel : Nat)
    (hskip : find_skip_match (c :: rest) = some n) :
    cyrToLatGo (fuel + 1) (c :: rest) =
      takeBytesChars n (c :: rest) ++
        cyrToLatGo fuel
          (List.drop (takeBytesChars n (c :: rest)).length (c :: rest)) := by
  rw [cyrToLatGo, hskip]

theorem latToCyrGo_skip {c : Char} {rest : List Char} {n : Nat}
    (fuel pos su : Nat) (hskip : find_skip_match (c :: rest) = some n) :
    latToCyrGo (fuel + 1) (c :: rest) pos su =
      takeBytesChars n (c :: rest) ++
        latToCyrGo fuel
          (List.drop (takeBytesChars n (c :: rest)).length (c :: rest))
          (pos + utf8Len (takeBytesChars n (c :: rest))) su := by
  rw [latToCyrGo, hskip]

theorem latToCyrGo_suppress {c : Char} {rest : List Char} (fuel pos su : Nat)
    (hskip : find_skip_match (c :: rest) = none) (hpos : pos < su) :
    latToCyrGo (fuel + 1) (c :: rest) pos su =
      (process_char c rest.head? false).1 ++
        latToCyrGo fuel rest (pos + c.utf8Size) su := by
  rw [latToCyrGo, hskip]
  simp only [if_pos hpos]

theorem latToCyrGo_exception {c : Char} {rest : List Char} {len : Nat}
    (fuel pos su : Nat) (hskip : find_skip_match (c :: rest) = none)
    (hpos : ¬ pos < su) (hexc : findExceptionLen (c :: rest) = some len) :
    latToCyrGo (fuel + 1) (c :: rest) pos su =
      (process_char c rest.head? false).1 ++
        latToCyrGo fuel rest (pos + c.utf8Size) (pos + len) := by
  rw [latToCyrGo, hskip]
  simp only [if_neg hpos, hexc]

theorem latToCyrGo_doubles {c : Char} {rest : List Char} (fuel pos su : Nat)
    (hskip : find_skip_match (c :: rest) = none) (hpos : ¬ pos < su)
    (hexc : findExceptionLen (c :: rest) = none) :
    latToCyrGo (fuel + 1) (c :: rest) pos su =
      (process_char c rest.head? true).1 ++
        (if (process_char c rest.head? true).2 then
          latToCyrGo fuel rest.tail
            (pos + c.utf8Size +
              (match rest.head? with | some n => n.utf8Size | none => 0)) su
        else latToCyrGo fuel rest (pos + c.utf8Size) su) := by
  rw [latToCyrGo, hskip]
  simp only [if_neg hpos, hexc]
  rcases hb : (process_char c rest.head? true).2 <;> simp [hb]

theorem process_char_nodoubles (c : Char) (next? : Option Char) :
    process_char c next? false =
      (match LAT_TO_CYR [rustToLower c] with
       | some cyr => [caseAdjust c cyr]
       | none => [c], false) := by
  cases next? <;> rfl

theorem process_char_none (c : Char) (doubles : Bool) :
    process_char c none doubles =
      (match LAT_TO_CYR [rustToLower c] with
       | some cyr => [caseAdjust c cyr]
       | none => [c], false) := by
  cases doubles <;> rfl

theorem process_char_pair {c n cyr : Char}
    (h : LAT_TO_CYR [rustToLower c, rustToLower n] = some cyr) :
    process_char c (some n) true = ([caseAdjust c cyr], true) := by
  rw [process_char, h]

theorem process_char_nopair {c n : Char}
    (h : LAT_TO_CYR [rustToLower c, rustToLower n] = none) :
    process_char c (some n) true =
      (match LAT_TO_CYR [rustToLower c] with
       | some cyr => [caseAdjust c cyr]
       | none => [c], false) := by
  rw [process_char, h]

theorem cyrToLatGo_unmapped {c : Char} {rest : List Char} (fuel : Nat)
    (hskip : find_skip_match (c :: rest) = none)
    (hmap : CYR_TO_LAT (rustToLower c) = none) :
    cyrToLatGo (fuel + 1) (c :: rest) = c :: cyrToLatGo fuel rest := by
  rw [cyrToLatGo, hskip, hmap]

theorem cyrToLatGo_mapped_nil {c : Char} {rest : List Char} (fuel : Nat)
    (hskip : find_skip_match (c :: rest) = none)
    (hmap : CYR_TO_LAT (rustToLower c) = some []) :
    cyrToLatGo (fuel + 1) (c :: rest) = cyrToLatGo fuel rest := by
  rw [cyrToLatGo, hskip, hmap]

theorem cyrToLatGo_mapped_one {c l0 : Char} {rest : List Char} (fuel : Nat)
    (hskip : find_skip_match (c :: rest) = none)
    (hmap : CYR_TO_LAT (rustToLower c) = some [l0]) :
    cyrToLatGo (fuel + 1) (c :: rest) =
      (if rustIsUpper c then rustToUpper l0 else l0) ::
        cyrToLatGo fuel rest := by
  rw [cyrToLatGo, hskip, hmap]

theorem cyrToLatGo_mapped_two {c l0 l1 : Char} {rest lt2 : List Char}
    (fuel : Nat) (hskip : find_skip_match (c :: rest) = none)
    (hmap : CYR_TO_LAT (rustToLower c) = some (l0 :: l1 :: lt2)) :
    cyrToLatGo (fuel + 1) (c :: rest) =
      (if rustIsUpper c then rustToUpper l0 else l0) ::
        (match rest.head? with
         | some cn => if rustIsUpper cn then rustToUpper l1 else l1
         | none => l1) :: cyrToLatGo fuel rest := by
  rw [cyrToLatGo, hskip, hmap]

/-!
## C8: characters the lookup tables can never reach survive unchanged

The original claim (every character outside both alphabets is
byte-identical in the output) fails at exactly the two code points
U+212A and U+0130, which lie outside both alphabets yet case-fold into
the reverse table's keys and are therefore transliterated by
`lat_to_cyr`.  The amended statement filters on `trulyOutside`, which
additionally requires the lowercase folding to lie outside both
alphabets.
-/

theorem trulyOutside_if_upper {l0 : Char} (h : l0 ∈ latLowerLetters)
    (b : Bool) :
    trulyOutside (if b then rustToUpper l0 else l0) = false := by
  cases b
  · simpa using trulyOutside_of_mem (upper_latLower_mem h).2
  · simpa using trulyOutside_of_mem (upper_latLower_mem h).1

theorem cyrToLatGo_filter : ∀ fuel (s : List Char), s.length ≤ fuel →
    (cyrToLatGo fuel s).filter trulyOutside =
      s.filter trulyOutside := by
  intro fuel
  induction fuel with
  | zero =>
    intro s hs
    have hnil : s = [] := List.eq_nil_of_length_eq_zero (by omega)
    subst hnil
    rfl
  | succ fuel ih =>
    intro s hs
    rcases s with _ | ⟨c, rest⟩
    · rfl
    · rcases hskip : find_skip_match (c :: rest) with _ | n
      · rcases hmap : CYR_TO_LAT (rustToLower c) with _ | l
        · rw [cyrToLatGo_unmapped fuel hskip hmap]
          simp only [List.filter_cons]
          rw [ih rest (by simpa using hs)]
        · have hcf : trulyOutside c = false :=
            CYR_TO_LAT_lookup_out (by rw [hmap]; rfl)
          rcases l with _ | ⟨l0, ltail⟩
          · rw [cyrToLatGo_mapped_nil fuel hskip hmap]
            rw [ih rest (by simpa using hs)]
            simp [List.filter_cons, hcf]
          · have hl0 : l0 ∈ latLowerLetters :=
              CYR_TO_LAT_form_mem hmap l0 (List.mem_cons_self _ _)
            have hrec := ih rest (by simpa using hs)
            rcases ltail with _ | ⟨l1, lt2⟩
            · rw [cyrToLatGo_mapped_one fuel hskip hmap]
              simp [List.filter_cons, trulyOutside_if_upper hl0,
                hcf, hrec]
            · rw [cyrToLatGo_mapped_two fuel hskip hmap]
              have hl1 : l1 ∈ latLowerLetters :=
                CYR_TO_LAT_form_mem hmap l1
                  (List.mem_cons_of_mem _ (List.mem_cons_self _ _))
              have hl1f : trulyOutside l1 = false := by
                simpa using trulyOutside_if_upper hl1 false
              rcases hh : rest.head? with _ | cn
              · simp [hh, List.filter_cons, trulyOutside_if_upper hl0,
                  hcf, hrec, hl1f]
              · simp only [hh]
                simp [List.filter_cons, trulyOutside_if_upper hl0,
                  hcf, hrec,
                  trulyOutside_if_upper hl1 (rustIsUpper cn)]
      · rw [cyrToLatGo_skip fuel hskip]
        obtain ⟨pre, suf, hsplit, hpre, hlen, htake⟩ :=
          find_skip_match_strict hskip
        rw [htake]
        have hdrops : List.drop pre.length (c :: rest) = suf := by
          rw [hsplit]; exact List.drop_left pre suf
        rw [hdrops, List.filter_append]
        have hlensum : pre.length + suf.length = rest.length + 1 := by
          have := congrArg List.length hsplit
          simpa using this.symm
        have hprelen : 0 < pre.length := List.length_pos.2 hpre
        rw [ih suf (by simp at hs; omega)]
        rw [hsplit, List.filter_append]

theorem latToCyrGo_filter : ∀ fuel (s : List Char) pos su, s.length ≤ fuel →
    (latToCyrGo fuel s pos su).filter trulyOutside =
      s.filter trulyOutside := by
  intro fuel
  induction fuel with
  | zero =>
    intro s pos su hs
    have hnil : s = [] := List.eq_nil_of_length_eq_zero (by omega)
    subst hnil
    rfl
  | succ fuel ih =>
    intro s pos su hs
    rcases s with _ | ⟨c, rest⟩
    · rfl
    · rcases hskip : find_skip_match (c :: rest) with _ | n
      · have hstep1 : ∀ su', ((process_char c rest.head? false).1 ++
            latToCyrGo fuel rest (pos + c.utf8Size) su').filter
              trulyOutside = (c :: rest).filter trulyOutside := by
          intro su'
          rw [process_char_nodoubles, List.filter_append,
            ih rest _ _ (by simpa using hs)]
          rcases hm : LAT_TO_CYR [rustToLower c] with _ | cyr
          · rcases hoc : trulyOutside c <;> simp [List.filter_cons, hoc]
          · have hc : trulyOutside c = false :=
              latSingle_lookup_out (by rw [hm]; rfl)
            have hcyr : cyr ∈ cyrLowerLetters := latSingle_val_mem hm
            simp [List.filter_cons, hc,
              trulyOutside_of_mem (caseAdjust_cyr_mem hcyr)]
        by_cases hpos : pos < su
        · rw [latToCyrGo_suppress fuel pos su hskip hpos]
          exact hstep1 su
        · rcases hexc : findExceptionLen (c :: rest) with _ | len
          · rw [latToCyrGo_doubles fuel pos su hskip hpos hexc]
            rcases hh : rest.head? with _ | cn
            · have hrest : rest = [] := by
                cases rest
                · rfl
                · cases hh
              subst hrest
              rw [process_char_none]
              rcases hm : LAT_TO_CYR [rustToLower c] with _ | cyr
              · rcases hoc : trulyOutside c <;>
                  simp [List.filter_cons, latToCyrGo_nil, hoc]
              · have hc : trulyOutside c = false :=
                  latSingle_lookup_out (by rw [hm]; rfl)
                have hcyr : cyr ∈ cyrLowerLetters := latSingle_val_mem hm
                simp [List.filter_cons, latToCyrGo_nil, hc,
                  trulyOutside_of_mem (caseAdjust_cyr_mem hcyr)]
            · obtain ⟨rest2, hrest⟩ : ∃ rest2, rest = cn :: rest2 := by
                cases rest with
                | nil => cases hh
                | cons a b => injection hh with hh; exact ⟨b, by rw [hh]⟩
              subst hrest
              rcases hm : LAT_TO_CYR [rustToLower c, rustToLower cn]
                  with _ | cyr
              · rw [process_char_nopair hm]
                simp only [Bool.false_eq_true, if_false, List.tail_cons]
                rw [List.filter_append,
                  ih (cn :: rest2) _ _ (by simpa using hs)]
                rcases hm1 : LAT_TO_CYR [rustToLower c] with _ | cyr1
                · rcases hoc : trulyOutside c <;>
                    simp [List.filter_cons, hoc]
                · have hc : trulyOutside c = false :=
                    latSingle_lookup_out (by rw [hm1]; rfl)
                  have hcyr : cyr1 ∈ cyrLowerLetters := latSingle_val_mem hm1
                  simp [List.filter_cons, hc,
                    trulyOutside_of_mem (caseAdjust_cyr_mem hcyr)]
              · rw [process_char_pair hm]
                simp only [if_true, List.tail_cons]
                obtain ⟨hc, hcn⟩ :
                    trulyOutside c = false ∧ trulyOutside cn = false :=
                  latPair_lookup_out (by rw [hm]; rfl)
                have hcyr : cyr ∈ cyrLowerLetters :=
                  (latPair_parts (hm : latPair _ _ = some cyr)).1
                rw [List.filter_append,
                  ih rest2 _ _ (by simp at hs; omega)]
                simp [List.filter_cons, hc, hcn,
                  trulyOutside_of_mem (caseAdjust_cyr_mem hcyr)]
          · rw [latToCyrGo_exception fuel pos su hskip hpos hexc]
            exact hstep1 _
      · rw [latToCyrGo_skip fuel pos su hskip]
        obtain ⟨pre, suf, hsplit, hpre, hlen, htake⟩ :=
          find_skip_match_strict hskip
        rw [htake]
        have hdrops : List.drop pre.length (c :: rest) = suf := by
          rw [hsplit]; exact List.drop_left pre suf
        rw [hdrops, List.filter_append]
        have hlensum : pre.length + suf.length = rest.length + 1 := by
          have := congrArg List.length hsplit
          simpa using this.symm
        have hprelen : 0 < pre.length := List.length_pos.2 hpre
        rw [ih suf _ _ (by simp at hs; omega)]
        rw [hsplit, List.filter_append]

/-- C8 counterexample: U+212A KELVIN SIGN and U+0130 LATIN CAPITAL LETTER
I WITH DOT ABOVE lie outside both alphabets, yet `lat_to_cyr` does not
keep them byte-identical: their Unicode lowercase foldings are the reverse
table keys `k` and `i`, so they are transliterated to `К` and `И`. -/
theorem C8_mixed_scripts_counterexample :
    outsideAlphabets 'K' = true ∧
    outsideAlphabets 'İ' = true ∧
    lat_to_cyr (String.mk ['K']) = String.mk ['К'] ∧
    lat_to_cyr (String.mk ['İ']) = String.mk ['И'] ∧
    (lat_to_cyr (String.mk ['K'])).data.filter outsideAlphabets ≠
      (String.mk ['K']).data.filter outsideAlphabets := by
  exact ⟨by decide, by decide, by decide, by decide, by decide⟩

/-- C8 (amended): for every input, the subsequence of characters outside
both alphabets whose lowercase folding is also outside both alphabets
(digits, punctuation, emoji, anything the lookup tables can never reach)
is exactly preserved, in order and multiplicity, by both converters; only
U+212A and U+0130 lie outside both alphabets and fail that side
condition. -/
theorem C8_mixed_scripts_amended (s : String) :
    (cyr_to_lat s).data.filter trulyOutside =
      s.data.filter trulyOutside ∧
    (lat_to_cyr s).data.filter trulyOutside =
      s.data.filter trulyOutside ∧
    (∀ c, outsideAlphabets c = true → trulyOutside c = false →
      c = 'K' ∨ c = 'İ') := by
  refine ⟨?_, ?_, ?_⟩
  · exact cyrToLatGo_filter s.data.length s.data (le_refl _)
  · exact latToCyrGo_filter s.data.length s.data 0 0 (le_refl _)
  · intro c h1 h2
    have hnc : bothAlphabets.contains c = false := by
      have h1' := h1
      simp only [outsideAlphabets, Bool.not_eq_true'] at h1'
      exact h1'
    have hcl : bothAlphabets.contains (rustToLower c) = true := by
      have h2' := h2
      simp only [trulyOutside, hnc, Bool.not_false, Bool.true_and,
        Bool.not_eq_false'] at h2'
      exact h2'
    have hmem : rustToLower c ∈ bothAlphabets := by
      obtain ⟨a, ha, hb⟩ := List.contains_iff_exists_mem_beq.1 hcl
      have hab : rustToLower c = a := by simpa using hb
      rw [hab]; exact ha
    rw [rustToLower] at hmem
    rcases hf : casePairs.find? (fun p => p.1 = c) with _ | pr
    · rw [hf] at hmem
      rw [mem_contains_true hmem] at hnc
      cases hnc
    · rw [hf] at hmem
      have hc : pr.1 = c := by simpa using List.find?_some hf
      have hp : pr ∈ casePairs := List.mem_of_find?_eq_some hf
      have hout : bothAlphabets.contains pr.1 = false := by rw [hc]; exact hnc
      have hm2 : pr.2 ∈ bothAlphabets := hmem
      rw [← hc]
      clear hmem hf hc hnc hcl h1 h2
      revert hm2
      revert hout
      revert hp
      revert pr
      decide

/-- Witness for the amended C8: a concrete mixed-script input keeps its
outside characters through `lat_to_cyr`, and the two-code-point
characterisation holds at U+212A. -/
theorem C8_mixed_scripts_amended_witness :
    ((lat_to_cyr "1x.Ж€").data.filter trulyOutside =
      "1x.Ж€".data.filter trulyOutside) ∧
    ('\u212A' = '\u212A' ∨ '\u212A' = 'İ') := by
  constructor
  · exact (C8_mixed_scripts_amended "1x.Ж€").2.1
  · exact (C8_mixed_scripts_amended "").2.2 '\u212A' (by decide) (by decide)

/-!
## Equations for `cyrEmit`, `cyrSecond` and `latProcess`
-/

theorem cyrEmit_unmapped {c : Char} (n : Option Char)
    (hmap : CYR_TO_LAT (rustToLower c) = none) : cyrEmit c n = [c] := by
  rw [cyrEmit, hmap]

theorem cyrEmit_one {c l0 : Char} (n : Option Char)
    (hmap : CYR_TO_LAT (rustToLower c) = some [l0]) :
    cyrEmit c n = [if rustIsUpper c then rustToUpper l0 else l0] := by
  rw [cyrEmit, hmap]

theorem cyrEmit_two {c l0 l1 : Char} {lt : List Char} (n : Option Char)
    (hmap : CYR_TO_LAT (rustToLower c) = some (l0 :: l1 :: lt)) :
    cyrEmit c n =
      [if rustIsUpper c then rustToUpper l0 else l0,
       match n with
       | some cn => if rustIsUpper cn then rustToUpper l1 else l1
       | none => l1] := by
  rw [cyrEmit, hmap]

theorem cyrSecond_eq {c l0 l1 : Char} {lt : List Char} (b : Bool)
    (hmap : CYR_TO_LAT (rustToLower c) = some (l0 :: l1 :: lt)) :
    cyrSecond c b = if b then rustToUpper l1 else l1 := by
  rw [cyrSecond, hmap]

theorem cyrEmit_two_second {c l0 l1 : Char} {lt : List Char} (n : Option Char)
    (hmap : CYR_TO_LAT (rustToLower c) = some (l0 :: l1 :: lt)) :
    cyrEmit c n =
      [if rustIsUpper c then rustToUpper l0 else l0,
       cyrSecond c (optUpper n)] := by
  rw [cyrEmit_two n hmap, cyrSecond_eq (optUpper n) hmap]
  rcases n with _ | x
  · rfl
  · rfl

theorem latProcess_pair {c1 c2 cyr : Char} {rest : List Char}
    (hm : LAT_TO_CYR [rustToLower c1, rustToLower c2] = some cyr) :
    latProcess (c1 :: c2 :: rest) = caseAdjust c1 cyr :: latProcess rest := by
  rw [latProcess, hm]

theorem latProcess_nopair {c1 c2 : Char} {rest : List Char}
    (hm : LAT_TO_CYR [rustToLower c1, rustToLower c2] = none) :
    latProcess (c1 :: c2 :: rest) =
      latProcessOne c1 ++ latProcess (c2 :: rest) := by
  rw [latProcess, hm]

theorem latProcessOne_singleton (c : Char) : ∃ E, latProcessOne c = [E] := by
  rw [latProcessOne]
  rcases hm : LAT_TO_CYR [rustToLower c] with _ | cyr
  · exact ⟨c, rfl⟩
  · exact ⟨caseAdjust c cyr, rfl⟩

/-!
## Finite per-character facts (established by `decide` over the explicit
alphabet lists)
-/

/-- Every character of both round-trip alphabets splits into the three
processing categories. -/
theorem cat_split : ∀ c ∈ allowedCyr,
    c ∈ safeOthers ∨ c ∈ cyrSingleLetters ∨ c ∈ cyrDigraphLetters := by
  decide

/-- Facts about the skip-safe non-letters. -/
theorem safe_facts : ∀ c ∈ safeOthers,
    rustToLower c = c ∧ CYR_TO_LAT c = none ∧ latSingle c = none ∧
      rustIsUpper c = false ∧ imageHead c = c := by
  decide

/-- Facts about the single-form Cyrillic letters. -/
theorem single_facts : ∀ c ∈ cyrSingleLetters,
    CYR_TO_LAT (rustToLower c) = some [rustToLower (imageHead c)] ∧
      (if rustIsUpper c then rustToUpper (rustToLower (imageHead c))
       else rustToLower (imageHead c)) = imageHead c ∧
      latProcessOne (imageHead c) = [c] := by
  decide

/-- The single-emit categories also satisfy
`latProcessOne (imageHead c) = [c]` and their last form character is the
lowercase folded image head. -/
theorem single_cat_facts : ∀ c ∈ safeOthers ++ cyrSingleLetters,
    formLast c = rustToLower (imageHead c) ∧
      latProcessOne (imageHead c) = [c] ∧
      (∀ n, cyrEmit c n = [imageHead c]) := by
  intro c hc
  rcases List.mem_append.1 hc with h | h
  · obtain ⟨h1, h2, h3, h4, h5⟩ := safe_facts c h
    have hmap : CYR_TO_LAT (rustToLower c) = none := by rw [h1]; exact h2
    refine ⟨?_, ?_, fun n => ?_⟩
    · rw [formLast, hmap, h5, h1]
    · rw [h5, latProcessOne]
      rw [show LAT_TO_CYR [rustToLower c] = latSingle (rustToLower c)
        from rfl, h1, h3]
    · rw [cyrEmit_unmapped n hmap, h5]
  · obtain ⟨h1, h2, h3⟩ := single_facts c h
    refine ⟨?_, h3, fun n => ?_⟩
    · rw [formLast, h1]
      rfl
    · rw [cyrEmit_one n h1, h2]

/-- Facts about the digraph Cyrillic letters: the shape of their form,
the inverse lookup of their two emitted characters (whatever the case of
the peeked character), and the case round trip of the merged letter. -/
theorem digraph_facts : ∀ c ∈ cyrDigraphLetters,
    CYR_TO_LAT (rustToLower c) =
        some [rustToLower (imageHead c), formSnd c] ∧
      (if rustIsUpper c then rustToUpper (rustToLower (imageHead c))
       else rustToLower (imageHead c)) = imageHead c ∧
      (∀ b ∈ [false, true],
        rustToLower (if b then rustToUpper (formSnd c) else formSnd c) =
          formSnd c) ∧
      latPair (rustToLower (imageHead c)) (formSnd c) =
        some (rustToLower c) ∧
      caseAdjust (imageHead c) (rustToLower c) = c := by
  decide

/-!
## Reduction of the converter loops to their pure cores on skip-free,
exception-free inputs
-/

theorem noSkipChars_cons {c : Char} {rest : List Char}
    (h : noSkipChars (c :: rest)) : noSkipChars rest :=
  fun x hx => h x (List.mem_cons_of_mem _ hx)

theorem noSkipB_cons {c : Char} {rest : List Char}
    (h : noSkipB (c :: rest) = true) :
    find_skip_match (c :: rest) = none ∧ noSkipB rest = true := by
  unfold noSkipB at h ⊢
  rw [List.tails, List.all_cons, Bool.and_eq_true] at h
  exact ⟨Option.isNone_iff_eq_none.1 h.1, h.2⟩

/-- Skip-freedom at every position follows from the absence of the four
trigger characters. -/
theorem noSkipB_of_noSkipChars : ∀ s : List Char,
    noSkipChars s → noSkipB s = true := by
  intro s
  induction s with
  | nil => intro _; rfl
  | cons c rest ih =>
    intro h
    unfold noSkipB
    rw [List.tails, List.all_cons, Bool.and_eq_true]
    refine ⟨?_, ih (noSkipChars_cons h)⟩
    rw [find_skip_match_none_of_noSkipChars h]
    rfl

theorem exceptionFreeB_cons {c : Char} {rest : List Char}
    (h : exceptionFreeB (c :: rest) = true) :
    findExceptionLen (c :: rest) = none ∧ exceptionFreeB rest = true := by
  unfold exceptionFreeB at h ⊢
  rw [List.tails, List.all_cons, Bool.and_eq_true] at h
  exact ⟨Option.isNone_iff_eq_none.1 h.1, h.2⟩

theorem noAmbigPairs_rest {c : Char} {rest : List Char}
    (h : noAmbigPairs (c :: rest) = true) : noAmbigPairs rest = true := by
  rcases rest with _ | ⟨n, rest2⟩
  · rfl
  · rw [noAmbigPairs, Bool.and_eq_true] at h
    exact h.2

theorem noAmbigPairs_head {c1 c2 : Char} {rest : List Char}
    (h : noAmbigPairs (c1 :: c2 :: rest) = true) :
    cyrAmbigPair c1 c2 = false := by
  rw [noAmbigPairs, Bool.and_eq_true] at h
  simpa using h.1

theorem pairCasesOK_rest {c : Char} {rest : List Char}
    (h : pairCasesOK (c :: rest) = true) : pairCasesOK rest = true := by
  rcases rest with _ | ⟨n, rest2⟩
  · rfl
  · rw [pairCasesOK, Bool.and_eq_true] at h
    exact h.2

theorem pairCasesOK_head {c1 c2 : Char} {rest : List Char}
    (h : pairCasesOK (c1 :: c2 :: rest) = true) (hk : isKeyPairB c1 c2 = true) :
    rustIsUpper c2 = headUpper rest := by
  rw [pairCasesOK, Bool.and_eq_true] at h
  have h1 := h.1
  rw [hk, if_pos rfl] at h1
  simpa using h1

theorem process_char_fst_nodoubles (c : Char) (n : Option Char) :
    (process_char c n false).1 = latProcessOne c := by
  rw [process_char_nodoubles]
  rfl

theorem cyrToLatGo_eq_cyrImage : ∀ fuel (s : List Char), s.length ≤ fuel →
    noSkipB s = true → cyrToLatGo fuel s = cyrImage s := by
  intro fuel
  induction fuel with
  | zero =>
    intro s hs _
    have hnil : s = [] := List.eq_nil_of_length_eq_zero (by omega)
    subst hnil
    rfl
  | succ fuel ih =>
    intro s hs hns
    rcases s with _ | ⟨c, rest⟩
    · rfl
    · obtain ⟨hskip, hnsr⟩ := noSkipB_cons hns
      have hrec := ih rest (by simpa using hs) hnsr
      rw [cyrImage]
      rcases hmap : CYR_TO_LAT (rustToLower c) with _ | l
      · rw [cyrToLatGo_unmapped fuel hskip hmap, hrec,
          cyrEmit_unmapped rest.head? hmap]
        rfl
      · rcases l with _ | ⟨l0, ltail⟩
        · rw [cyrToLatGo_mapped_nil fuel hskip hmap, hrec,
            show cyrEmit c rest.head? = [] from by rw [cyrEmit, hmap]]
          rfl
        · rcases ltail with _ | ⟨l1, lt2⟩
          · rw [cyrToLatGo_mapped_one fuel hskip hmap, hrec,
              cyrEmit_one rest.head? hmap]
            rfl
          · rw [cyrToLatGo_mapped_two fuel hskip hmap, hrec,
              cyrEmit_two rest.head? hmap]
            rfl

theorem latToCyrGo_eq_latProcess : ∀ fuel (s : List Char) pos,
    s.length ≤ fuel → noSkipB s = true → exceptionFreeB s = true →
    latToCyrGo fuel s pos 0 = latProcess s := by
  intro fuel
  induction fuel with
  | zero =>
    intro s pos hs _ _
    have hnil : s = [] := List.eq_nil_of_length_eq_zero (by omega)
    subst hnil
    rfl
  | succ fuel ih =>
    intro s pos hs hns hef
    rcases s with _ | ⟨c, rest⟩
    · rfl
    · obtain ⟨hskip, hnsr⟩ := noSkipB_cons hns
      obtain ⟨hexc, hefr⟩ := exceptionFreeB_cons hef
      rw [latToCyrGo_doubles fuel pos 0 hskip (by omega) hexc]
      rcases rest with _ | ⟨cn, rest2⟩
      · simp only [List.head?_nil, process_char_none, latToCyrGo_nil]
        rw [latProcess]
        simp [latProcessOne]
      · simp only [List.head?_cons]
        rcases hm : LAT_TO_CYR [rustToLower c, rustToLower cn] with _ | cyr
        · rw [process_char_nopair hm]
          simp only [Bool.false_eq_true, if_false, List.tail_cons]
          rw [ih (cn :: rest2) _ (by simpa using hs) hnsr hefr]
          rw [latProcess_nopair hm]
          rfl
        · rw [process_char_pair hm]
          simp only [if_true, List.tail_cons]
          obtain ⟨-, hefr2⟩ := exceptionFreeB_cons hefr
          obtain ⟨-, hnsr2⟩ := noSkipB_cons hnsr
          rw [ih rest2 _ (by simp at hs; omega) hnsr2 hefr2]
          rw [latProcess_pair hm]
          rfl

theorem mem_false_true (b : Bool) : b ∈ [false, true] := by
  rcases b <;> simp

theorem cyrEmit_head {n : Char} (hn : n ∈ allowedCyr) (h : Option Char) :
    ∃ M, cyrEmit n h = imageHead n :: M := by
  rcases cat_split n hn with hcat | hcat | hcat
  · obtain ⟨-, -, hE⟩ :=
      single_cat_facts n (List.mem_append.2 (Or.inl hcat))
    exact ⟨[], hE h⟩
  · obtain ⟨-, -, hE⟩ :=
      single_cat_facts n (List.mem_append.2 (Or.inr hcat))
    exact ⟨[], hE h⟩
  · obtain ⟨hshape, hfirst, -, -, -⟩ := digraph_facts n hcat
    refine ⟨[cyrSecond n (optUpper h)], ?_⟩
    rw [cyrEmit_two_second h hshape, hfirst]

theorem isSome_false_eq_none {α : Type} {o : Option α}
    (h : o.isSome = false) : o = none := by
  rcases o with _ | v
  · rfl
  · cases h

/-- The heart of the Cyrillic-direction round trip: on the allowed
alphabet with no ambiguous adjacent pair, the digraph-merging reverse
pass exactly inverts the forward image. -/
theorem latProcess_cyrImage : ∀ (s : List Char),
    (∀ c ∈ s, c ∈ allowedCyr) → noAmbigPairs s = true →
    latProcess (cyrImage s) = s := by
  intro s
  induction s with
  | nil => intro _ _; rfl
  | cons c rest ih =>
    intro hmem hamb
    have hc := hmem c (List.mem_cons_self _ _)
    have hmemr : ∀ x ∈ rest, x ∈ allowedCyr :=
      fun x hx => hmem x (List.mem_cons_of_mem _ hx)
    have hrec := ih hmemr (noAmbigPairs_rest hamb)
    rw [cyrImage]
    have hsplit2 : (c ∈ safeOthers ++ cyrSingleLetters) ∨
        c ∈ cyrDigraphLetters := by
      rcases cat_split c hc with h | h | h
      · exact Or.inl (List.mem_append.2 (Or.inl h))
      · exact Or.inl (List.mem_append.2 (Or.inr h))
      · exact Or.inr h
    rcases hsplit2 with hcs | hcd
    · obtain ⟨hflast, hpone, hE⟩ := single_cat_facts c hcs
      rw [hE rest.head?]
      rcases rest with _ | ⟨n, rest2⟩
      · show latProcess [imageHead c] = [c]
        rw [latProcess]
        exact hpone
      · have hn := hmemr n (List.mem_cons_self _ _)
        obtain ⟨M, hM⟩ := cyrEmit_head hn rest2.head?
        rw [show cyrImage (n :: rest2) =
          cyrEmit n rest2.head? ++ cyrImage rest2 from rfl, hM]
        have hambig := noAmbigPairs_head hamb
        have hprobe : LAT_TO_CYR
            [rustToLower (imageHead c), rustToLower (imageHead n)] = none := by
          show latPair (rustToLower (imageHead c)) (rustToLower (imageHead n))
            = none
          rw [← hflast]
          apply isSome_false_eq_none
          rw [← cyrAmbigPair]
          exact hambig
        show latProcess (imageHead c :: imageHead n :: (M ++ cyrImage rest2))
          = c :: n :: rest2
        rw [latProcess_nopair hprobe, hpone]
        have : imageHead n :: (M ++ cyrImage rest2) =
            cyrImage (n :: rest2) := by
          show _ = cyrEmit n rest2.head? ++ cyrImage rest2
          rw [hM]
          rfl
        rw [this, hrec]
        rfl
    · obtain ⟨hshape, hfirst, hlow, hpair, hcase⟩ := digraph_facts c hcd
      rw [cyrEmit_two_second rest.head? hshape, hfirst]
      have hprobe : LAT_TO_CYR [rustToLower (imageHead c),
          rustToLower (cyrSecond c (optUpper rest.head?))] =
            some (rustToLower c) := by
        show latPair (rustToLower (imageHead c))
          (rustToLower (cyrSecond c (optUpper rest.head?))) = some _
        rw [cyrSecond_eq (optUpper rest.head?) hshape,
          hlow (optUpper rest.head?) (mem_false_true _)]
        exact hpair
      show latProcess (imageHead c :: cyrSecond c (optUpper rest.head?) ::
        cyrImage rest) = c :: rest
      rw [latProcess_pair hprobe, hcase, hrec]

/-!
## The Latin-direction round trip
-/

set_option maxRecDepth 4096 in
theorem latSingleFact : ∀ c ∈ allowedLat, latSingleFactB c = true := by
  decide

set_option maxRecDepth 16384 in
theorem latPairFact : ∀ c1 ∈ allowedLat, ∀ c2 ∈ allowedLat,
    latPairFactB c1 c2 = true := by
  decide

theorem latFact_headUpper {c : Char} (hc : c ∈ allowedLat) :
    headUpper (latProcessOne c) = rustIsUpper c := by
  have hf := latSingleFact c hc
  simp only [latSingleFactB, Bool.and_eq_true, decide_eq_true_eq] at hf
  exact hf.1

theorem latFact_some {c k : Char} (hc : c ∈ allowedLat)
    (hm : latSingle (rustToLower c) = some k) :
    caseAdjust c k ∈ cyrSingleLetters ∧ imageHead (caseAdjust c k) = c := by
  have hf := latSingleFact c hc
  simp only [latSingleFactB, hm, Bool.and_eq_true, decide_eq_true_eq] at hf
  exact hf.2

theorem latFact_none {c : Char} (hc : c ∈ allowedLat)
    (hm : latSingle (rustToLower c) = none) :
    CYR_TO_LAT (rustToLower c) = none := by
  have hf := latSingleFact c hc
  simp only [latSingleFactB, hm, Bool.and_eq_true, decide_eq_true_eq] at hf
  exact hf.2

theorem latPairFact_some {c1 c2 k : Char} (h1 : c1 ∈ allowedLat)
    (h2 : c2 ∈ allowedLat)
    (hm : latPair (rustToLower c1) (rustToLower c2) = some k) :
    caseAdjust c1 k ∈ cyrDigraphLetters ∧
      imageHead (caseAdjust c1 k) = c1 ∧
      cyrSecond (caseAdjust c1 k) (rustIsUpper c2) = c2 ∧
      rustIsUpper (caseAdjust c1 k) = rustIsUpper c1 ∧
      caseAdjust c1 k ∉ skipTriggers := by
  have hf := latPairFact c1 h1 c2 h2
  simp only [latPairFactB, hm, Bool.and_eq_true, decide_eq_true_eq] at hf
  exact ⟨hf.1.1.1.1, hf.1.1.1.2, hf.1.1.2, hf.1.2, hf.2⟩

theorem latProcessOne_eq_none {c : Char}
    (hm : latSingle (rustToLower c) = none) : latProcessOne c = [c] := by
  rw [latProcessOne,
    show LAT_TO_CYR [rustToLower c] = latSingle (rustToLower c) from rfl, hm]

theorem latProcessOne_eq_some {c k : Char}
    (hm : latSingle (rustToLower c) = some k) :
    latProcessOne c = [caseAdjust c k] := by
  rw [latProcessOne,
    show LAT_TO_CYR [rustToLower c] = latSingle (rustToLower c) from rfl, hm]

theorem headUpper_latProcess {s : List Char}
    (hmem : ∀ c ∈ s, c ∈ allowedLat) :
    headUpper (latProcess s) = headUpper s := by
  rcases s with _ | ⟨c1, rest⟩
  · rfl
  rcases rest with _ | ⟨c2, rest2⟩
  · show headUpper (latProcessOne c1) = _
    rw [latFact_headUpper (hmem c1 (List.mem_cons_self _ _))]
    rfl
  · rcases hm : LAT_TO_CYR [rustToLower c1, rustToLower c2] with _ | k
    · rw [latProcess_nopair hm]
      obtain ⟨E, hE⟩ := latProcessOne_singleton c1
      have hhd := latFact_headUpper (hmem c1 (List.mem_cons_self _ _))
      rw [hE] at hhd ⊢
      exact hhd
    · rw [latProcess_pair hm]
      show rustIsUpper (caseAdjust c1 k) = _
      rw [(latPairFact_some (hmem c1 (List.mem_cons_self _ _))
        (hmem c2 (by simp)) hm).2.2.2.1]
      rfl

theorem optUpper_head (l : List Char) : optUpper l.head? = headUpper l := by
  cases l <;> rfl

/-- The heart of the Latin-direction round trip: on the allowed alphabet
with case-consistent digraph pairs, the forward image exactly inverts the
digraph-merging reverse pass. -/
theorem cyrImage_latProcess : ∀ (N : Nat) (s : List Char), s.length ≤ N →
    (∀ c ∈ s, c ∈ allowedLat) → pairCasesOK s = true →
    cyrImage (latProcess s) = s := by
  intro N
  induction N with
  | zero =>
    intro s hs _ _
    have hnil : s = [] := List.eq_nil_of_length_eq_zero (by omega)
    subst hnil
    rfl
  | succ N ih =>
    intro s hs hmem hpc
    rcases s with _ | ⟨c1, rest⟩
    · rfl
    rcases rest with _ | ⟨c2, rest2⟩
    · show cyrImage (latProcessOne c1) = [c1]
      rcases hm : latSingle (rustToLower c1) with _ | k
      · rw [latProcessOne_eq_none hm]
        have hnone := latFact_none (hmem c1 (List.mem_cons_self _ _)) hm
        show cyrEmit c1 none ++ [] = [c1]
        rw [cyrEmit_unmapped none hnone]
        rfl
      · obtain ⟨hKmem, hKhead⟩ :=
          latFact_some (hmem c1 (List.mem_cons_self _ _)) hm
        rw [latProcessOne_eq_some hm]
        obtain ⟨-, -, hE⟩ := single_cat_facts (caseAdjust c1 k)
          (List.mem_append.2 (Or.inr hKmem))
        show cyrEmit (caseAdjust c1 k) none ++ [] = [c1]
        rw [hE none, hKhead]
        rfl
    · rcases hm : LAT_TO_CYR [rustToLower c1, rustToLower c2] with _ | k
      · rw [latProcess_nopair hm]
        have hrec := ih (c2 :: rest2) (by simpa using hs)
          (fun y hy => hmem y (List.mem_cons_of_mem _ hy))
          (pairCasesOK_rest hpc)
        rcases hm1 : latSingle (rustToLower c1) with _ | k1
        · rw [latProcessOne_eq_none hm1]
          have hnone := latFact_none (hmem c1 (List.mem_cons_self _ _)) hm1
          show cyrEmit c1 (latProcess (c2 :: rest2)).head? ++
            cyrImage (latProcess (c2 :: rest2)) = _
          rw [cyrEmit_unmapped _ hnone, hrec]
          rfl
        · obtain ⟨hKmem, hKhead⟩ :=
            latFact_some (hmem c1 (List.mem_cons_self _ _)) hm1
          rw [latProcessOne_eq_some hm1]
          obtain ⟨-, -, hE⟩ := single_cat_facts (caseAdjust c1 k1)
            (List.mem_append.2 (Or.inr hKmem))
          show cyrEmit (caseAdjust c1 k1) (latProcess (c2 :: rest2)).head? ++
            cyrImage (latProcess (c2 :: rest2)) = _
          rw [hE _, hKhead, hrec]
          rfl
      · rw [latProcess_pair hm]
        have hmem1 := hmem c1 (List.mem_cons_self _ _)
        have hmem2 : c2 ∈ allowedLat := hmem c2 (by simp)
        obtain ⟨hKdig, hKhead, hKsnd, hKcase, -⟩ :=
          latPairFact_some hmem1 hmem2 hm
        have hkey : isKeyPairB c1 c2 = true := by
          rw [isKeyPairB, show latPair (rustToLower c1) (rustToLower c2) =
            LAT_TO_CYR [rustToLower c1, rustToLower c2] from rfl, hm]
          rfl
        have hrest2mem : ∀ y ∈ rest2, y ∈ allowedLat :=
          fun y hy => hmem y (by simp [hy])
        have hrec := ih rest2 (by simp at hs; omega) hrest2mem
          (pairCasesOK_rest (pairCasesOK_rest hpc))
        obtain ⟨hshape, hfirst, -, -, -⟩ := digraph_facts _ hKdig
        show cyrEmit (caseAdjust c1 k) (latProcess rest2).head? ++
          cyrImage (latProcess rest2) = _
        rw [cyrEmit_two_second _ hshape, hfirst, hKhead, hrec]
        have hb : optUpper (latProcess rest2).head? = rustIsUpper c2 := by
          rw [optUpper_head, headUpper_latProcess hrest2mem,
            ← pairCasesOK_head hpc hkey]
        rw [hb, hKsnd]
        rfl

/-- C1 counterexample: "тањуг" is pure Cyrillic (letters of the 30-letter
alphabet only), yet the round trip fails: its Latin image "tanjug" is in
the exception set, so the return conversion yields "танјуг". -/
theorem C1_roundtrip_counterexample :
    (∀ c ∈ "тањуг".data, c ∈ cyrLowerLetters) ∧
    lat_to_cyr (cyr_to_lat "тањуг") ≠ "тањуг" := by
  exact ⟨by decide, by decide⟩

/-- C1 (amended): skip spans never fire on inputs avoiding the four
characters period, hash, backslash and dollar; and on both alphabets
plus digits, whitespace and ASCII punctuation, the round trip holds
whenever no skip pattern matches at any position of the input or of its
image, and additionally (Cyrillic direction) no adjacent letter pair
latinises into an ambiguous digraph sequence and the Latin image contains
no exception-set substring, and (Latin direction) the input contains no
exception-set substring and every digraph pair's second letter's case
agrees with the case of the following character. -/
theorem C1_roundtrip_amended :
    (∀ s : List Char, (∀ c ∈ s, c ∉ skipTriggers) → noSkipB s = true) ∧
    (∀ s : String, (∀ c ∈ s.data, c ∈ allowedCyr) →
      noSkipB s.data = true →
      noSkipB (cyrImage s.data) = true →
      noAmbigPairs s.data = true →
      exceptionFreeB (cyrImage s.data) = true →
      lat_to_cyr (cyr_to_lat s) = s) ∧
    (∀ s : String, (∀ c ∈ s.data, c ∈ allowedLat) →
      noSkipB s.data = true →
      noSkipB (latProcess s.data) = true →
      exceptionFreeB s.data = true →
      pairCasesOK s.data = true →
      cyr_to_lat (lat_to_cyr s) = s) := by
  refine ⟨fun s h => noSkipB_of_noSkipChars s h, ?_, ?_⟩
  · intro s hmem hns hnsi hamb hef
    have h1 : cyr_to_lat s = String.mk (cyrImage s.data) := by
      rw [cyr_to_lat,
        cyrToLatGo_eq_cyrImage s.data.length s.data (le_refl _) hns]
    rw [h1]
    have h2 : lat_to_cyr (String.mk (cyrImage s.data)) =
        String.mk (latProcess (cyrImage s.data)) := by
      rw [lat_to_cyr]
      show String.mk (latToCyrGo (cyrImage s.data).length
        (cyrImage s.data) 0 0) = _
      rw [latToCyrGo_eq_latProcess (cyrImage s.data).length _ 0 (le_refl _)
        hnsi hef]
    rw [h2, latProcess_cyrImage s.data hmem hamb]
  · intro s hmem hns hnsp hef hpc
    have h1 : lat_to_cyr s = String.mk (latProcess s.data) := by
      rw [lat_to_cyr,
        latToCyrGo_eq_latProcess s.data.length s.data 0 (le_refl _) hns hef]
    rw [h1]
    have h2 : cyr_to_lat (String.mk (latProcess s.data)) =
        String.mk (cyrImage (latProcess s.data)) := by
      rw [cyr_to_lat]
      show String.mk (cyrToLatGo (latProcess s.data).length
        (latProcess s.data)) = _
      rw [cyrToLatGo_eq_cyrImage (latProcess s.data).length _ (le_refl _)
        hnsp]
    rw [h2,
      cyrImage_latProcess s.data.length s.data (le_refl _) hmem hpc]

/-- Witness for the amended C1 at concrete inputs: trigger-free inputs
are skip-free, and the round trip holds in both directions. -/
theorem C1_roundtrip_amended_witness :
    noSkipB "Његош, 123?".data = true ∧
    lat_to_cyr (cyr_to_lat "Његош, 123?") = "Његош, 123?" ∧
    cyr_to_lat (lat_to_cyr "Njegoš, 123?") = "Njegoš, 123?" := by
  refine ⟨?_, ?_, ?_⟩
  · exact C1_roundtrip_amended.1 "Његош, 123?".data (by decide)
  · exact C1_roundtrip_amended.2.1 "Његош, 123?" (by decide) (by decide)
      (by decide) (by decide) (by decide)
  · exact C1_roundtrip_amended.2.2 "Njegoš, 123?" (by decide) (by decide)
      (by decide) (by decide) (by decide)

/-!
## C7: totality of the converters
-/

/-- C7: the partial operations inside the converters always succeed: the
forward table never yields an empty form (so indexing its characters is
safe); a skip match always covers a nonempty whole-character prefix (so
slicing at its byte offsets and the `skip_chars - 1` decrement are safe);
and characters with no mapping are passed through unchanged rather than
rejected, in `cyr_to_lat` and in `process_char` with and without digraph
lookahead.  (The embedded converters are total Lean functions over all
inputs by construction.) -/
theorem C7_totality :
    (∀ c l, CYR_TO_LAT c = some l → l ≠ [] ∧ l.length ≤ 2) ∧
    (∀ s n, find_skip_match s = some n →
      ∃ pre suf, s = pre ++ suf ∧ pre ≠ [] ∧ utf8Len pre = n ∧
        takeBytesChars n s = pre) ∧
    (∀ fuel c rest, find_skip_match (c :: rest) = none →
      CYR_TO_LAT (rustToLower c) = none →
      cyrToLatGo (fuel + 1) (c :: rest) = c :: cyrToLatGo fuel rest) ∧
    (∀ c next?, LAT_TO_CYR [rustToLower c] = none →
      process_char c next? false = ([c], false)) ∧
    (∀ c cn, LAT_TO_CYR [rustToLower c] = none →
      LAT_TO_CYR [rustToLower c, rustToLower cn] = none →
      process_char c (some cn) true = ([c], false)) := by
  refine ⟨?_, fun s n h => find_skip_match_strict h, ?_, ?_, ?_⟩
  · intro c l h
    unfold CYR_TO_LAT at h
    split at h <;>
      first
        | (injection h with h2; subst h2; exact ⟨by decide, by decide⟩)
        | (cases h)
  · intro fuel c rest hskip hmap
    rw [cyrToLatGo, hskip, hmap]
  · intro c next? hmap
    cases next? <;> simp [process_char, hmap]
  · intro c cn hmap1 hmap2
    simp [process_char, hmap1, hmap2]

/-- Witness for C7 at concrete inputs: the skip span of "#ab", the
pass-through of an unmapped `'x'` in both converters. -/
theorem C7_totality_witness :
    (∃ pre suf, "#ab".data = pre ++ suf ∧ pre ≠ [] ∧ utf8Len pre = 3 ∧
      takeBytesChars 3 "#ab".data = pre) ∧
    cyrToLatGo 1 ['x'] = 'x' :: cyrToLatGo 0 [] ∧
    process_char 'x' none false = (['x'], false) ∧
    process_char 'x' (some 'x') true = (['x'], false) := by
  refine ⟨C7_totality.2.1 "#ab".data 3 (by decide), ?_, ?_, ?_⟩
  · exact C7_totality.2.2.1 0 'x' [] (by decide) (by decide)
  · exact C7_totality.2.2.2.1 'x' none (by decide)
  · exact C7_totality.2.2.2.2 'x' 'x' (by decide) (by decide)

end Cirko
